import Mathlib

/-!
# Verification of the `automata` library

A shallow embedding of the Rust `automata` crate (DFA/NFA/regex conversions and
the deterministic self-modifying automaton, DMA), with theorems settling the
frozen specification claims.

Conventions of the embedding:
* machine integers (`usize`) become `Nat`; node/state/transition handles are
  their indices (`Target`'s `index + 1` non-zero encoding is invisible through
  its API, so handles are stored as plain indices);
* a Rust `panic!` / failed `unwrap` / failed `assert!` is `Option.none`;
* `HashSet`s that are only tested for membership become `List`s; `HashSet`s
  compared for equality are compared as sets (`≃ₛ` below, matching set
  equality of hash sets); `BTreeSet`s become sorted, deduplicated lists;
* hash-map iteration orders are modelled by association-list order; this only
  permutes freshly allocated handles, never the shape of results;
* `binary_search` over a sorted deduplicated vector is modelled by the first
  matching index (which is the unique matching index there).
-/

namespace Automata

/-- Association-list lookup (model of `HashMap::get`). -/
def alookup {κ β : Type} [DecidableEq κ] : List (κ × β) → κ → Option β
  | [], _ => none
  | (k, v) :: rest, key => if k = key then some v else alookup rest key

/-- Model of `Vec::resize(n, dflt)`: truncate or pad to exactly `n` elements. -/
def resizeTo {β : Type} (l : List β) (n : Nat) (dflt : β) : List β :=
  if n ≤ l.length then l.take n else l ++ List.replicate (n - l.length) dflt

/-- Model of `Ensure::ensure_default` / `ensure_with`: grow (never shrink) to length `n`. -/
def ensureTo {β : Type} (l : List β) (n : Nat) (dflt : β) : List β :=
  l ++ List.replicate (n - l.length) dflt

/-- In-place update of one element (model of indexed mutation of a `Vec` slot). -/
def modifyAt {β : Type} (l : List β) (i : Nat) (f : β → β) : List β :=
  match l.get? i with
  | none => l
  | some x => l.set i (f x)

/-- Model of `HashSet::insert` on an insertion-ordered duplicate-free list. -/
def sinsert {β : Type} [DecidableEq β] (l : List β) (c : β) : List β :=
  if c ∈ l then l else l ++ [c]

/-- Set equality of two lists (equality of the hash sets they model). -/
def seq {β : Type} [DecidableEq β] (l₁ l₂ : List β) : Prop :=
  (∀ x ∈ l₁, x ∈ l₂) ∧ ∀ x ∈ l₂, x ∈ l₁

instance {β : Type} [DecidableEq β] : DecidablePred (fun p : List β × List β => seq p.1 p.2) :=
  fun _ => by unfold seq; infer_instance

instance seqDecidable {β : Type} [DecidableEq β] (l₁ l₂ : List β) : Decidable (seq l₁ l₂) := by
  unfold seq; infer_instance

/-- Canonical form of a `BTreeSet`: sorted with duplicates removed. -/
def sortDedup {β : Type} [LinearOrder β] (l : List β) : List β :=
  (l.insertionSort (· ≤ ·)).dedup

/-- First position satisfying `p`, or the length (`Iterator::position` + `unwrap_or_else(len)`). -/
def posOrLen {β : Type} (l : List β) (p : β → Bool) : Nat :=
  match l.findIdx? p with
  | some i => i
  | none => l.length

/-! ## Regex DAG (`src/regex.rs`)

`Handle` is the index of an operation in the `subs` vector. -/

/-- Model of `regex::Op`. `Match(A)` is constructor `sym`. -/
inductive ROp (A : Type) : Type
  | epsilon : ROp A
  | sym : A → ROp A
  | star : Nat → ROp A
  | or : Nat → Nat → ROp A
  | concat : Nat → Nat → ROp A
deriving DecidableEq

/-- Model of `regex::Regex`: a vector of operations. -/
structure RegexD (A : Type) : Type where
  subs : List (ROp A)
deriving DecidableEq

/-- The handle-validity check performed by the `assert!`s in `Regex::push`. -/
def ROp.valid {A : Type} (op : ROp A) (len : Nat) : Bool :=
  match op with
  | .epsilon => true
  | .sym _ => true
  | .star i => decide (i < len)
  | .or i j => decide (i < len) && decide (j < len)
  | .concat i j => decide (i < len) && decide (j < len)

/-- Model of `Regex::push`: validate handles, append, return handle of the new operation.
`none` is the `assert!` panic on a dangling handle. -/
def RegexD.push {A : Type} (r : RegexD A) (op : ROp A) : Option (RegexD A × Nat) :=
  if op.valid r.subs.length then some (⟨r.subs ++ [op]⟩, r.subs.length) else none

/-- Model of `Regex::root`: the last-pushed handle, absent when empty. -/
def RegexD.root {A : Type} (r : RegexD A) : Option Nat :=
  match r.subs.length with
  | 0 => none
  | n + 1 => some n

/-- Model of `regex::Cached`: a regex plus an `Op → Handle` cache (association list). -/
structure Cached (A : Type) : Type where
  regex : RegexD A
  cache : List (ROp A × Nat)
deriving DecidableEq

/-- Model of `Regex::cached`. -/
def RegexD.cached {A : Type} (r : RegexD A) : Cached A := ⟨r, []⟩

/-- Model of `Cached::insert`: return the cached handle if present, else push and record. -/
def Cached.insert {A : Type} [DecidableEq A] (c : Cached A) (op : ROp A) :
    Option (Cached A × Nat) :=
  match alookup c.cache op with
  | some h => some (c, h)
  | none =>
    match c.regex.push op with
    | none => none
    | some (r, h) => some (⟨r, c.cache ++ [(op, h)]⟩, h)

/-- Model of `Cached::into_inner`. -/
def Cached.intoInner {A : Type} (c : Cached A) : RegexD A := c.regex

/-! ## DMA (`src/dma.rs`) -/

/-- Model of `dma::Error`. -/
inductive DmaError : Type
  | InvalidChar
  | NoSuchEdge
  | NoSuchState
  | NoSuchCreator
deriving DecidableEq

/-- Model of `dma::TransitionKind`: the entries of the transition-kind table. -/
inductive TrKind : Type
  | standard
  | creating (creator : Nat)
deriving DecidableEq

/-- Model of `dma::EdgeTarget` of a creator-produced edge. -/
inductive EdgeTarget (A : Type) : Type
  | selfCycle
  | target (a : A)

/-- Model of `dma::NewEdge`: target description plus optional transition-kind override. -/
structure NewEdge (A : Type) : Type where
  target : EdgeTarget A
  kind : Option Nat

/-- Model of `dma::CreatorFn` (the trait object): finality flag and per-character edge shape. -/
structure CreatorFn (A : Type) : Type where
  isFinal : Bool
  edge : A → NewEdge A

/-- Model of `dma::Dma`. An edge is a `(target, transition)` pair of indices. The
`lut` field of the source is always the enumeration map of the (immutable)
`alphabet` vector, so it is represented by the derived lookup `Dma.index`
rather than stored. -/
structure Dma (A : Type) : Type where
  alphabet : List A
  nextState : Nat
  finalStates : List Nat
  edges : List (Nat × Nat)
  transitions : List TrKind
  creator : List (CreatorFn A)

/-- Model of `dma::Run`: a run owns a private copy of the DMA and a current state. -/
structure Run (A : Type) : Type where
  backing : Dma A
  state : Nat

/-- Model of `Dma::new`. -/
def Dma.new {A : Type} (alph : List A) : Dma A :=
  { alphabet := alph
    nextState := 0
    finalStates := []
    edges := []
    transitions := [.standard]
    creator := [] }

/-- Model of `Dma::index` via the `lut` hash map: the map is built by inserting
`(character, index)` for the enumerated alphabet, so a duplicated character
resolves to its last index. -/
def Dma.index {A : Type} [DecidableEq A] (m : Dma A) (c : A) : Option Nat :=
  m.alphabet.enum.foldl (fun acc p => if p.2 = c then some p.1 else acc) none

/-- Model of `Dma::edge`: flat lookup at `|Σ| * state + character`; `none` is the
`unwrap` panic on a missing entry. -/
def Dma.edge {A : Type} (m : Dma A) (state c : Nat) : Option (Nat × Nat) :=
  m.edges.get? (m.alphabet.length * state + c)

/-- Model of `Dma::add_state`: append the edges, bump the state counter, record finality. -/
def Dma.addState {A : Type} (m : Dma A) (isFinal : Bool) (edges : List (Nat × Nat)) :
    Dma A × Nat :=
  ({ m with
      edges := m.edges ++ edges
      nextState := m.nextState + 1
      finalStates := if isFinal then sinsert m.finalStates m.nextState else m.finalStates },
    m.nextState)

/-- Model of `Dma::new_state`. The source guards it with `assert!(edges.len() == edges.len())`
(sic — the left and right operands are the same expression), embedded verbatim. -/
def Dma.newState {A : Type} (m : Dma A) (isFinal : Bool) (edges : List (Nat × Nat)) :
    Option (Dma A × Nat) :=
  if edges.length = edges.length then some (m.addState isFinal edges) else none

/-- Model of `Dma::new_transition` (creator registration followed by the transition entry). -/
def Dma.newTransition {A : Type} (m : Dma A) (cf : CreatorFn A) : Dma A × Nat :=
  let creatorId := m.creator.length
  let m₁ := { m with creator := m.creator ++ [cf] }
  let newId := m₁.transitions.length
  ({ m₁ with transitions := m₁.transitions ++ [.creating creatorId] }, newId)

/-- The edge-building loop of `Dma::derive_state`, over the remaining alphabet.
Outer `none` is an index-out-of-range panic; `Except.error` is an early `?` return. -/
def Dma.deriveEdges {A : Type} [DecidableEq A] (m : Dma A) (cf : CreatorFn A)
    (newId ownKind trStart : Nat) : List A → Option (Except DmaError (List (Nat × Nat)))
  | [] => some (.ok [])
  | a :: rest =>
    let ne := cf.edge a
    match ne.target with
    | .selfCycle =>
      (m.deriveEdges cf newId ownKind trStart rest).map
        (·.map ((newId, ne.kind.getD ownKind) :: ·))
    | .target a' =>
      match m.index a' with
      | none => some (.error .InvalidChar)
      | some idx =>
        if idx < m.alphabet.length then
          match m.edges.get? (trStart + idx) with
          | none => none
          | some (t, tr) =>
            (m.deriveEdges cf newId ownKind trStart rest).map
              (·.map ((t, ne.kind.getD tr) :: ·))
        else none

/-- Model of `Dma::derive_state`. Returns the (possibly extended) DMA together with the
result; `none` is a panic (failed `assert!` or slice indexing). -/
def Dma.deriveState {A : Type} [DecidableEq A] (m : Dma A) (blueprint creatorIdx : Nat) :
    Option (Dma A × Except DmaError Nat) :=
  let ownKind := creatorIdx + 1
  match m.creator.get? creatorIdx with
  | none => some (m, .error .NoSuchCreator)
  | some cf =>
    let trCount := m.alphabet.length
    if m.nextState ≤ blueprint then some (m, .error .NoSuchState)
    else
      let trStart := trCount * blueprint
      if m.edges.length < trStart + trCount then none
      else
        match m.deriveEdges cf m.nextState ownKind trStart m.alphabet with
        | none => none
        | some (.error e) => some (m, .error e)
        | some (.ok newEdges) =>
          let r := m.addState cf.isFinal newEdges
          some (r.1, .ok r.2)

/-- Model of `Run::transition_to`. -/
def Run.transitionTo {A : Type} [DecidableEq A] (r : Run A) (target : Nat) (kind : TrKind) :
    Option (Run A × Option DmaError) :=
  match kind with
  | .standard => some ({ r with state := target }, none)
  | .creating creatorIdx =>
    match r.backing.deriveState target creatorIdx with
    | none => none
    | some (m, .error e) => some (⟨m, r.state⟩, some e)
    | some (m, .ok s) => some (⟨m, s⟩, none)

/-- Model of `Run::next`: one input symbol. `some (r, some e)` is an `Err(e)` return with
run state `r`; `some (r, none)` is `Ok(())`; `none` is a panic. -/
def Run.next {A : Type} [DecidableEq A] (r : Run A) (ch : A) :
    Option (Run A × Option DmaError) :=
  match r.backing.index ch with
  | none => some (r, some .InvalidChar)
  | some c =>
    match r.backing.edge r.state c with
    | none => none
    | some (target, transition) =>
      match r.backing.transitions.get? transition with
      | none => some (r, some .NoSuchEdge)
      | some kind => r.transitionTo target kind

/-- Model of `Run::is_final`. -/
def Run.isFinal {A : Type} (r : Run A) : Bool :=
  r.backing.finalStates.contains r.state

/-! ## Deterministic graph (`src/deterministic.rs`)

`Target` values are stored as their `index()`; the `index + 1` `NonZero`
encoding never leaks through the API. -/

/-- Model of `deterministic::Deterministic`: sorted deduplicated alphabet, a flat
`node_count × |Σ|` vector of optional targets, and the next node id. -/
structure Det (A : Type) : Type where
  alphabet : List A
  edges : List (Option Nat)
  nextId : Nat
deriving DecidableEq

/-- Model of `Deterministic::new`: sort, then deduplicate (`Vec::dedup` on a sorted
vector removes all duplicates). -/
def Det.new {A : Type} [LinearOrder A] (alph : List A) : Det A :=
  ⟨(alph.insertionSort (· ≤ ·)).dedup, [], 0⟩

/-- Model of `Deterministic::node`: append `|Σ|` absent slots, return the fresh id. -/
def Det.node {A : Type} (d : Det A) : Det A × Nat :=
  ({ d with edges := d.edges ++ List.replicate d.alphabet.length none, nextId := d.nextId + 1 },
    d.nextId)

/-- Model of `Deterministic::edges` (`valid_edges_range` + slice): the `|Σ|` slots of a
node, absent when the node id is out of range. -/
def Det.edgeSlots {A : Type} (d : Det A) (node : Nat) : Option (List (Option Nat)) :=
  if node < d.nextId then
    some ((d.edges.drop (node * d.alphabet.length)).take d.alphabet.length)
  else none

/-- Model of `Deterministic::iter_edges`: the present edges of a node as
`(character index, target)` pairs, empty for an invalid node. The source
yields the character itself; the slot index is recovered from it by binary
search in the sorted deduplicated alphabet, so the index is carried directly. -/
def Det.iterEdges {A : Type} (d : Det A) (node : Nat) : List (Nat × Nat) :=
  match d.edgeSlots node with
  | none => []
  | some slots => slots.enum.filterMap fun p => p.2.map fun t => (p.1, t)

/-- Model of `Deterministic::is_complete`: every slot is present. -/
def Det.isComplete {A : Type} (d : Det A) : Bool :=
  d.edges.all Option.isSome

/-- Write the target of slot `sym` of `node` (`edges_mut(node)[symbol] = Some(target)`). -/
def Det.writeEdge {A : Type} (d : Det A) (node sym target : Nat) : Det A :=
  { d with edges := d.edges.set (node * d.alphabet.length + sym) (some target) }

/-- Index of a character in the alphabet (model of `binary_search`: the
alphabet is sorted and deduplicated, so the first match is the only match). -/
def alphIdx {A : Type} [DecidableEq A] (alph : List A) (c : A) : Option Nat :=
  alph.findIdx? fun a => decide (a = c)

/-! ## DFA (`src/dfa.rs`) -/

/-- Model of `dfa::Dfa`: deterministic graph plus accepting targets (membership-only
hash set, kept as a list of state indices). -/
structure Dfa (A : Type) : Type where
  graph : Det A
  finals : List Nat
deriving DecidableEq

/-- First phase of `Dfa::from_edges`: accumulate per-source adjacency lists and
per-source character sets (`check`), both index-extended on demand. -/
def Dfa.fromEdgesAccum {A : Type} [DecidableEq A] (edgeIter : List (Nat × A × Nat)) :
    List (List (A × Nat)) × List (List A) :=
  edgeIter.foldl
    (fun acc e =>
      let edges := ensureTo (ensureTo acc.1 (e.1 + 1) []) (e.2.2 + 1) []
      let check := ensureTo (ensureTo acc.2 (e.1 + 1) []) (e.2.2 + 1) []
      (modifyAt edges e.1 (· ++ [(e.2.1, e.2.2)]),
        modifyAt check e.1 (sinsert · e.2.1)))
    ([[]], [[]])

/-- Ordering used by `edge_list.sort_unstable()` on `(A, usize)` pairs. -/
def pairLe {A : Type} [LinearOrder A] (x y : A × Nat) : Prop :=
  x.1 < y.1 ∨ (x.1 = y.1 ∧ x.2 ≤ y.2)

instance pairLeDecidable {A : Type} [LinearOrder A] : DecidableRel (pairLe (A := A)) :=
  fun _ _ => by unfold pairLe; infer_instance

/-- One iteration of the graph-materialisation loop of `Dfa::from_edges`:
sort the adjacency list, create the node, and write the targets positionally
(the zip of the node's `|Σ|` slots with the sorted list ignores the characters). -/
def Dfa.fromEdgesNode {A : Type} [LinearOrder A] (g : Det A) (edgeList : List (A × Nat)) :
    Det A :=
  let sorted := edgeList.insertionSort pairLe
  let gn := g.node
  { gn.1 with
      edges := (List.range gn.1.alphabet.length).foldl
        (fun es i =>
          match sorted.get? i with
          | some p => es.set (gn.2 * gn.1.alphabet.length + i) (some p.2)
          | none => es)
        gn.1.edges }

/-- Model of `Dfa::from_edges`. `none` is a `panic!`/failed `assert!`: a non-uniform
alphabet or an incomplete graph. The `finals` pass resizes `check` to
`c + 1` for every final state `c` (`Vec::resize`, which truncates); the
alphabet sample is the popped last `check` set. -/
def Dfa.fromEdges {A : Type} [LinearOrder A] (edgeIter : List (Nat × A × Nat))
    (finals : List Nat) : Option (Dfa A) :=
  let acc := fromEdgesAccum edgeIter
  let check := finals.foldl (fun check c => resizeTo check (c + 1) []) acc.2
  match check.getLast? with
  | none => none
  | some sample =>
    if check.dropLast.any fun s => decide ¬seq s sample then none
    else
      let g₀ := Det.new sample
      let g := acc.1.foldl fromEdgesNode g₀
      if g.isComplete then some ⟨g, finals⟩ else none

/-- Model of `Dfa::contains`: run the word from state 0; `none` is an `unwrap` panic
(invalid state, symbol outside `Σ`, or absent edge). -/
def Dfa.contains {A : Type} [DecidableEq A] (d : Dfa A) (w : List A) : Option Bool := do
  let final ← w.foldlM
    (fun state ch => do
      let slots ← d.graph.edgeSlots state
      let i ← alphIdx d.graph.alphabet ch
      let slot ← slots.get? i
      slot)
    0
  pure (d.finals.contains final)

/-- Model of `Dfa::alphabet`. -/
def Dfa.alphabet {A : Type} (d : Dfa A) : List A := d.graph.alphabet

/-! ## Non-deterministic graph (`src/nondeterministic.rs`)

A finished edge is a `(label, target)` pair where the label is `none` for ε
and `some i` for character index `i`. The `Label(Option<Character>)` order
(`None` below every character, characters by index) is captured by
`labelCode`: `ε ↦ 0`, index `i ↦ i + 1` — exactly the `NonZero` encoding. -/

/-- The numeric code of a label, realising the `Label` order. -/
def labelCode : Option Nat → Nat
  | none => 0
  | some i => i + 1

/-- Derived `Ord` of `nondeterministic::Edge`: by label, then by target. -/
def edgeLe (e f : Option Nat × Nat) : Prop :=
  labelCode e.1 < labelCode f.1 ∨ (labelCode e.1 = labelCode f.1 ∧ e.2 ≤ f.2)

instance edgeLeDecidable : DecidableRel edgeLe :=
  fun _ _ => by unfold edgeLe; infer_instance

/-- Model of `nondeterministic::NonDeterministic` (finished form): sorted characters, a
flat edge vector, and per-node `(start, stop)` ranges into it. -/
structure NGraph (A : Type) : Type where
  characters : List A
  edges : List (Option Nat × Nat)
  ranges : List (Nat × Nat)
deriving DecidableEq

/-- Model of `nondeterministic::Builder`: unsorted characters, the `ordered`
permutation (each entry a `Character`, i.e. an index into `characters`),
per-node labelled edges and per-node ε-successors. -/
structure NBuilder (A : Type) : Type where
  characters : List A
  ordered : List Nat
  edges : List (List (Nat × Nat))
  epsilons : List (List Nat)

/-- Model of `Builder::default`. -/
def NBuilder.empty {A : Type} : NBuilder A := ⟨[], [], [], []⟩

/-- Model of `Builder::ensure_nodes`. -/
def NBuilder.ensureNodes {A : Type} (b : NBuilder A) (node : Nat) : NBuilder A :=
  { b with
      edges := ensureTo b.edges (node + 1) []
      epsilons := ensureTo b.epsilons (node + 1) [] }

/-- Model of `Builder::resolve_char`: find the character through the `ordered` list
(model of `binary_search_by_key`; `characters` is duplicate-free, so the
first hit is the only hit). -/
def NBuilder.resolveChar {A : Type} [DecidableEq A] (b : NBuilder A) (c : A) : Option Nat :=
  b.ordered.find? fun oc => decide (b.characters.get? oc = some c)

/-- Model of `Builder::ensure_char`: intern a character; a missing character is pushed
to `characters` and spliced into `ordered` at its binary-search insertion
point (the number of interned characters ordered strictly below it). -/
def NBuilder.ensureChar {A : Type} [LinearOrder A] (b : NBuilder A) (c : A) :
    NBuilder A × Nat :=
  match b.resolveChar c with
  | some cid => (b, cid)
  | none =>
    let newChar := b.characters.length
    let pos := b.ordered.countP fun oc =>
      match b.characters.get? oc with
      | some a => decide (a < c)
      | none => false
    ({ b with
        characters := b.characters ++ [c]
        ordered := b.ordered.insertIdx pos newChar },
      newChar)

/-- Model of `Builder::insert`. -/
def NBuilder.insert {A : Type} [LinearOrder A] (b : NBuilder A) (src : Nat)
    (character : Option A) (dst : Nat) : NBuilder A :=
  let b := (b.ensureNodes src).ensureNodes dst
  match character with
  | some c =>
    let bc := b.ensureChar c
    { bc.1 with edges := modifyAt bc.1.edges src (· ++ [(bc.2, dst)]) }
  | none => { b with epsilons := modifyAt b.epsilons src (· ++ [dst]) }

/-- The relabelling map of `Builder::finish` (`character_label`): a builder
character id maps to the label holding its position in `ordered`; `none` is
the hash-map indexing panic on an uninterned id. -/
def NBuilder.characterLabel {A : Type} (b : NBuilder A) (c : Nat) : Option Nat :=
  b.ordered.findIdx? fun oc => decide (oc = c)

/-- One node of `Builder::finish`: emit the node's ε-edges followed by its
relabelled edges into the flat array, sort that slice, and record its range.
`none` is the relabelling panic (never reached for builder-constructed
graphs). -/
def NBuilder.finishStep {A : Type} [LinearOrder A] (b : NBuilder A)
    (acc : List (Option Nat × Nat) × List (Nat × Nat))
    (node : List (Nat × Nat) × List Nat) :
    Option (List (Option Nat × Nat) × List (Nat × Nat)) := do
  let labelled ← node.1.mapM fun e => (b.characterLabel e.1).map fun l => (some l, e.2)
  let slice := node.2.map (fun t => ((none : Option Nat), t)) ++ labelled
  let sorted := slice.insertionSort edgeLe
  pure (acc.1 ++ sorted, acc.2 ++ [(acc.1.length, acc.1.length + sorted.length)])

/-- Model of `Builder::finish`: sort the characters, then run `finishStep` over every
node. -/
def NBuilder.finish {A : Type} [LinearOrder A] (b : NBuilder A) : Option (NGraph A) := do
  let characters := b.characters.insertionSort (· ≤ ·)
  let folded ← (b.edges.zip b.epsilons).foldlM b.finishStep ([], [])
  pure ⟨characters, folded.1, folded.2⟩

/-- Model of `NonDeterministic::edges` (+ the `unwrap`ped slice lookup): the slice of a
node, `none` both for a missing node and for an inconsistent range. -/
def NGraph.edgesSlice {A : Type} (g : NGraph A) (node : Nat) :
    Option (List (Option Nat × Nat)) :=
  match g.ranges.get? node with
  | none => none
  | some r =>
    if r.1 ≤ r.2 ∧ r.2 ≤ g.edges.length then some ((g.edges.drop r.1).take (r.2 - r.1))
    else none

/-- Model of `NonDeterministic::label`: resolve an optional character to a label
(binary search in the sorted deduplicated `characters`). -/
def NGraph.labelOf {A : Type} [DecidableEq A] (g : NGraph A) (ch : Option A) :
    Option (Option Nat) :=
  match ch with
  | some c => (alphIdx g.characters c).map some
  | none => some none

/-- Model of `Edges::restrict_to`: narrow a slice to the edges bearing one label by
bisecting for the first position `≥` and the first position `>` the label. -/
def NGraph.restrictTo {A : Type} [DecidableEq A] (g : NGraph A)
    (slice : List (Option Nat × Nat)) (ch : Option A) : List (Option Nat × Nat) :=
  match g.labelOf ch with
  | none => []
  | some lab =>
    let start := posOrLen slice fun e => decide (labelCode lab ≤ labelCode e.1)
    let stop := posOrLen slice fun e => decide (labelCode lab < labelCode e.1)
    (slice.drop start).take (stop - start)

/-- The node count of the finished graph (the number of ranges). -/
def NGraph.nodeCount {A : Type} (g : NGraph A) : Nat := g.ranges.length

/-- Model of `Nodes::len` / `Nodes::todo` as written in the source: the length of the
flat **edge** vector (not the node count). -/
def NGraph.nodesLen {A : Type} (g : NGraph A) : Nat := g.edges.length

/-- One node of `NonDeterministic::from_deterministic`: materialise the
node's present edges, in slot (= label) order. -/
def NGraph.fromDetStep {A : Type} (d : Det A)
    (acc : List (Option Nat × Nat) × List (Nat × Nat)) (node : Nat) :
    List (Option Nat × Nat) × List (Nat × Nat) :=
  let slots := (d.edges.drop (node * d.alphabet.length)).take d.alphabet.length
  let outedges := slots.enum.filterMap fun p => p.2.map fun t => (some p.1, t)
  (acc.1 ++ outedges, acc.2 ++ [(acc.1.length, acc.1.length + outedges.length)])

/-- Model of `NonDeterministic::from_deterministic`: copy the alphabet and materialise
only the present edges of each node. -/
def NGraph.fromDeterministic {A : Type} (d : Det A) : NGraph A :=
  let folded := (List.range d.nextId).foldl (NGraph.fromDetStep d) ([], [])
  ⟨d.alphabet, folded.1, folded.2⟩

/-! ## NFA (`src/nfa.rs`) -/

/-- Model of `nfa::Nfa`: finished graph plus accepting nodes. -/
structure Nfa (A : Type) : Type where
  graph : NGraph A
  finals : List Nat
deriving DecidableEq

/-- Model of `Nfa::from_edges`: insert every edge into a fresh builder, then finish. -/
def Nfa.fromEdges {A : Type} [LinearOrder A] (edgeIter : List (Nat × Option A × Nat))
    (finals : List Nat) : Option (Nfa A) :=
  let b := edgeIter.foldl (fun b e => b.insert e.1 e.2.1 e.2.2) NBuilder.empty
  b.finish.map fun g => ⟨g, finals⟩

/-- Model of `Dfa::to_nfa`. -/
def Dfa.toNfa {A : Type} (d : Dfa A) : Nfa A :=
  ⟨NGraph.fromDeterministic d.graph, d.finals⟩

/-- The worklist of `Nfa::epsilon_reach`, with explicit fuel (the source loop
terminates because `reached` only grows; any fuel at least the number of
iterations gives the loop's result). `none` is the `unwrap` panic on a node
without an edge slice. -/
def NGraph.epsReachF {A : Type} [DecidableEq A] (g : NGraph A) :
    Nat → List Nat → List Nat → Option (List Nat)
  | 0, _, _ => none
  | fuel + 1, reached, todo =>
    match todo with
    | [] => some reached
    | next :: rest =>
      match g.edgesSlice next with
      | none => none
      | some slice =>
        let eps := (g.restrictTo slice none).map (·.2)
        let acc := eps.foldl
          (fun (acc : List Nat × List Nat) t =>
            if t ∈ acc.1 then acc else (acc.1 ++ [t], t :: acc.2))
          (reached, rest)
        g.epsReachF fuel acc.1 acc.2

/-- Model of `Nfa::epsilon_reach` from a single seed. -/
def NGraph.epsilonReach {A : Type} [DecidableEq A] (g : NGraph A) (fuel start : Nat) :
    Option (List Nat) :=
  g.epsReachF fuel [start] [start]

/-- Model of `Nfa::contains`: dynamic powerset run over the word. State sets are kept
as reached-order lists and canonicalised where the source relies on set
semantics. `none` is a panic inside `epsilon_reach` or the edge lookup. -/
def Nfa.contains {A : Type} [LinearOrder A] (n : Nfa A) (fuel : Nat) (w : List A) :
    Option Bool := do
  let init ← n.graph.epsilonReach fuel 0
  let states ← w.foldlM
    (fun states ch => do
      let perState ← states.mapM fun s => do
        let slice ← n.graph.edgesSlice s
        pure ((n.graph.restrictTo slice (some ch)).map (·.2))
      let nextSet := sortDedup perState.flatten
      let reaches ← nextSet.mapM fun s => n.graph.epsilonReach fuel s
      pure (sortDedup reaches.flatten))
    init
  pure (states.any fun s => n.finals.contains s)

/-- The body of the powerset worklist of `Nfa::into_dfa`: process one pending
subset against every alphabet character. State of the worklist:
`(state_map, pending, edges, finals)`. -/
def Nfa.intoDfaStep {A : Type} [LinearOrder A] (n : Nfa A) (fuel : Nat) (alphabet : List A)
    (st : List (List Nat × Nat) × List (List Nat) × List (Nat × A × Nat) × List Nat)
    (next : List Nat) :
    Option (List (List Nat × Nat) × List (List Nat) × List (Nat × A × Nat) × List Nat) := do
  let src ← alookup st.1 next
  alphabet.foldlM
    (fun st ch => do
      let perState ← next.mapM fun s => do
        let slice ← n.graph.edgesSlice s
        pure ((n.graph.restrictTo slice (some ch)).map (·.2))
      let basic := sortDedup perState.flatten
      let reaches ← basic.mapM fun s => n.graph.epsilonReach fuel s
      let closure := sortDedup reaches.flatten
      let isFinal := closure.any fun s => n.finals.contains s
      let newIndex := st.1.length
      let stPending :=
        match alookup st.1 closure with
        | some dst => (st.1, st.2.1, dst)
        | none => (st.1 ++ [(closure, newIndex)], closure :: st.2.1, newIndex)
      let finals := if isFinal then st.2.2.2 ++ [stPending.2.2] else st.2.2.2
      pure (stPending.1, stPending.2.1, st.2.2.1 ++ [(src, ch, stPending.2.2)], finals))
    (st.1, st.2.1, st.2.2.1, st.2.2.2)

/-- The fueled powerset worklist of `Nfa::into_dfa` (`pending` is a stack). -/
def Nfa.intoDfaLoop {A : Type} [LinearOrder A] (n : Nfa A) (fuel : Nat) (alphabet : List A) :
    Nat → List (List Nat × Nat) × List (List Nat) × List (Nat × A × Nat) × List Nat →
    Option (List (Nat × A × Nat) × List Nat)
  | 0, _ => none
  | wfuel + 1, st =>
    match st.2.1 with
    | [] => some (st.2.2.1, st.2.2.2)
    | next :: rest => do
      let st' ← n.intoDfaStep fuel alphabet (st.1, rest, st.2.2.1, st.2.2.2) next
      n.intoDfaLoop fuel alphabet wfuel st'

/-- Model of `Nfa::into_dfa`: powerset construction, then `Dfa::from_edges` on the
collected edges. -/
def Nfa.intoDfa {A : Type} [LinearOrder A] (n : Nfa A) (fuel : Nat)
    (alphabetExtension : List A) : Option (Dfa A) := do
  let initRaw ← n.graph.epsilonReach fuel 0
  let initial := sortDedup initRaw
  let alphabet := n.graph.characters ++ alphabetExtension
  let result ← n.intoDfaLoop fuel alphabet fuel ([(initial, 0)], [initial], [], [])
  Dfa.fromEdges result.1 result.2

/-! ## NFA → Regex (`Nfa::to_regex`) -/

/-- Model of `nfa::EphermalSymbol`: the pseudo start state, a real state, or the pseudo
end state (`stop`). -/

inductive ESym : Type
  | start
  | real (n : Nat)
  | stop
deriving DecidableEq

/-- The multimap `(u, v) → Vec<Handle>` of `to_regex`, as an association list
with unique keys. -/
abbrev MMap : Type := List ((ESym × ESym) × List Nat)

/-- Model of `MultiMap::insert`: push onto an existing entry or append a fresh one. -/
def mmInsert (m : MMap) (k : ESym × ESym) (h : Nat) : MMap :=
  match m with
  | [] => [(k, [h])]
  | e :: rest => if e.1 = k then (k, e.2 ++ [h]) :: rest else e :: mmInsert rest k h

/-- Model of `HashMap::remove_entry`: the removed value (if the key was present) and
the remaining map. -/
def mmRemove : MMap → ESym × ESym → Option (List Nat) × MMap
  | [], _ => (none, [])
  | e :: rest, key =>
    if e.1 = key then (some e.2, rest)
    else
      let r := mmRemove rest key
      (r.1, e :: r.2)

/-- Model of `Nodes` iteration: `(id, edge slice)` pairs for ascending ids, stopping at
the first id without a slice. -/
def NGraph.nodesListAux {A : Type} (g : NGraph A) : Nat → Nat → List (Nat × List (Option Nat × Nat))
  | 0, _ => []
  | k + 1, i =>
    match g.edgesSlice i with
    | none => []
    | some s => (i, s) :: g.nodesListAux k (i + 1)

/-- Model of `NonDeterministic::nodes` collected to a list. -/
def NGraph.nodesList {A : Type} (g : NGraph A) : List (Nat × List (Option Nat × Nat)) :=
  g.nodesListAux g.ranges.length 0

/-- The merge phase of `to_regex`: fold every entry's parallel labels into a
single `Or` chain (pop the last, `Or` it across the remaining ones in order). -/
def mergePhase {A : Type} [DecidableEq A] (c : Cached A) (m : MMap) :
    Option (Cached A × MMap) :=
  m.foldlM
    (fun acc entry => do
      match entry.2.getLast? with
      | none => pure (acc.1, acc.2 ++ [entry])
      | some first =>
        let folded ← entry.2.dropLast.foldlM
          (fun (st : Cached A × Nat) alt2 => st.1.insert (.or st.2 alt2))
          (acc.1, first)
        pure (folded.1, acc.2 ++ [(entry.1, [folded.2])]))
    (c, ([] : MMap))

/-- Drain the keys `(f i, g i)` for `i < k` from the map, collecting removed
entries in index order (the removal loops of phase 2.1/2.2). -/
def mmDrain (m : MMap) (k : Nat) (f g : Nat → ESym) :
    List ((ESym × ESym) × List Nat) × MMap :=
  (List.range k).foldl
    (fun st i =>
      let r := mmRemove st.2 (f i, g i)
      match r.1 with
      | none => (st.1, r.2)
      | some v => (st.1 ++ [((f i, g i), v)], r.2))
    ([], m)

/-- Model of `Nfa::get_single`: pop the last handle of an entry, if any. -/
def getSingle (e : (ESym × ESym) × List Nat) : Option ((ESym × ESym) × Nat) :=
  e.2.getLast?.map fun h => (e.1, h)

/-- One iteration of the state-elimination loop of `to_regex` (merge phase,
then removal of state `k`). -/
def elimStep {A : Type} [DecidableEq A] (k : Nat) (acc : Cached A × MMap) :
    Option (Cached A × MMap) := do
  let merged ← mergePhase acc.1 acc.2
  -- 2.1: edges into `k` (the `Start → k` entry is chained last).
  let startToR := mmRemove merged.2 (.start, .real k)
  let intoDrained := mmDrain startToR.2 k (fun i => .real i) (fun _ => .real k)
  let intoEntries := intoDrained.1 ++
    (match startToR.1 with
      | none => []
      | some v => [((.start, .real k), v)])
  let toList := intoEntries.filterMap getSingle
  -- 2.2: edges out of `k` (the `k → End` entry is chained last).
  let endR := mmRemove intoDrained.2 (.real k, .stop)
  let outDrained := mmDrain endR.2 k (fun _ => .real k) (fun i => .real i)
  let outEntries := outDrained.1 ++
    (match endR.1 with
      | none => []
      | some v => [((.real k, .stop), v)])
  let fromList := outEntries.filterMap getSingle
  -- 2.3: the self loop, starred.
  let selfR := mmRemove outDrained.2 (.real k, .real k)
  let cStar ← match selfR.1.bind (·.getLast?) with
    | none => pure (merged.1, (none : Option Nat))
    | some h => do
      let r ← merged.1.insert (.star h)
      pure (r.1, some r.2)
  -- 2.4: a path `u → v` for every `u → k`, `k → v`.
  toList.foldlM
    (fun accu fr =>
      fromList.foldlM
        (fun accv tov => do
          let r ←
            match cStar.2 with
            | some sh => do
              let r1 ← accv.1.insert (.concat fr.2 sh)
              r1.1.insert (.concat r1.2 tov.2)
            | none => accv.1.insert (.concat fr.2 tov.2)
          pure (r.1, mmInsert accv.2 (fr.1.1, tov.1.2) r.2))
        accu)
    (cStar.1, selfR.2)

/-- The initial edge collection of `to_regex` over `nodes()`: a `Match` handle
per labelled edge, the ε handle per ε edge. `none` is the `unlabel` indexing
panic on a label outside `characters`. -/
def collectEdges {A : Type} [DecidableEq A] (n : Nfa A) (eps : Nat)
    (start : Cached A × MMap) : Option (Cached A × MMap) :=
  n.graph.nodesList.foldlM
    (fun acc node =>
      node.2.foldlM
        (fun acc2 e =>
          match e.1 with
          | none => pure (acc2.1, mmInsert acc2.2 (.real node.1, .real e.2) eps)
          | some lidx => do
            let ch ← n.graph.characters.get? lidx
            let r ← acc2.1.insert (.sym ch)
            pure (r.1, mmInsert acc2.2 (.real node.1, .real e.2) r.2))
        acc)
    start

/-- Model of `Nfa::to_regex`: Kleene state elimination with the cached regex DAG. The
eliminated indices are `(0..self.graph.nodes().len()).rev()`, with `len` the
`Nodes` iterator's `len` (`nodesLen`, the length of the flat edge vector).
`none` is any panic, including the final `expect`s and `assert`s. -/
def Nfa.toRegex {A : Type} [LinearOrder A] (n : Nfa A) : Option (RegexD A) := do
  let r0 ← (RegexD.cached ⟨[]⟩).insert .epsilon
  let eps := r0.2
  let m : MMap := mmInsert [] (.start, .real 0) eps
  let m := n.finals.foldl (fun m f => mmInsert m (.real f, .stop) eps) m
  let collected ← collectEdges n eps (r0.1, m)
  let eliminated ← (List.range n.graph.nodesLen).reverse.foldlM
    (fun acc k => elimStep k acc) collected
  let fin := mmRemove eliminated.2 (.start, .stop)
  let vals ← fin.1
  let startToEnd ← vals.getLast?
  if fin.2 = [] then
    let regex := eliminated.1.intoInner
    if regex.root = some startToEnd then pure regex else none
  else none

/-! ## DFA product (`Dfa::pair`, `Dfa::pair_empty`) -/

/-- The state of the `Dfa::pair` worklist: the `(left, right) → id` map, the
stack of unprocessed `(left, right, id)` triples, the product graph under
construction, and the accepting ids. -/
structure PairSt (A : Type) : Type where
  assigned : List ((Nat × Nat) × Nat)
  working : List (Nat × Nat × Nat)
  graph : Det A
  finals : List Nat

/-- The decider applied to the finality of a product pair. -/
def pairAccept {A : Type} (a b : Dfa A) (f : Bool → Bool → Bool) (p : Nat × Nat) : Bool :=
  f (a.finals.contains p.1) (b.finals.contains p.2)

/-- The lockstep successors of a product pair: zip the two nodes' present
edges (for the complete graphs of DFAs the zip pairs equal symbols). -/
def pairSuccs {A : Type} (a b : Dfa A) (p : Nat × Nat) : List (Nat × Nat × Nat) :=
  ((a.graph.iterEdges p.1).zip (b.graph.iterEdges p.2)).map fun e => (e.1.1, e.1.2, e.2.2)

/-- Initial state of `Dfa::pair`: pair `(0,0)` is assigned id 0, pushed, and
node 0 of the product graph is allocated. -/
def Dfa.pairInit {A : Type} [LinearOrder A] (a : Dfa A) : PairSt A :=
  { assigned := [((0, 0), 0)]
    working := [(0, 0, 0)]
    graph := (Det.new a.graph.alphabet).node.1
    finals := [] }

/-- One lockstep successor of the `Dfa::pair` worklist: reuse the assigned id
of a seen pair or assign a fresh node id and push, then write the product
edge. -/
def Dfa.pairVisit {A : Type} (selfId : Nat) (st : PairSt A) (s : Nat × Nat × Nat) :
    PairSt A :=
  match alookup st.assigned (s.2.1, s.2.2) with
  | some nodeId => { st with graph := st.graph.writeEdge selfId s.1 nodeId }
  | none =>
    let gn := st.graph.node
    { assigned := st.assigned ++ [((s.2.1, s.2.2), gn.2)]
      working := (s.2.1, s.2.2, gn.2) :: st.working
      graph := gn.1.writeEdge selfId s.1 gn.2
      finals := st.finals }

/-- Process one popped triple of the `Dfa::pair` worklist: record finality,
then handle every lockstep successor. -/
def Dfa.pairStep {A : Type} [LinearOrder A] (a b : Dfa A) (f : Bool → Bool → Bool)
    (st : PairSt A) (item : Nat × Nat × Nat) : PairSt A :=
  let finals :=
    if pairAccept a b f (item.1, item.2.1) then sinsert st.finals item.2.2 else st.finals
  (pairSuccs a b (item.1, item.2.1)).foldl (Dfa.pairVisit item.2.2)
    { st with finals := finals }

/-- The fueled `while let Some(..) = working.pop()` loop of `Dfa::pair`. -/
def Dfa.pairLoop {A : Type} [LinearOrder A] (a b : Dfa A) (f : Bool → Bool → Bool) :
    Nat → PairSt A → PairSt A
  | 0, st => st
  | fuel + 1, st =>
    match st.working with
    | [] => st
    | item :: rest => a.pairLoop b f fuel (a.pairStep b f { st with working := rest } item)

/-- Fuel dominating the iteration count of both product worklists: every
assigned pair is `(0,0)` or a pair of edge targets, so the map can hold at
most `(|edges A| + 1) * (|edges B| + 1)` pairs, and the loop measure
`|working| + (bound - |assigned|)` starts at the bound. -/
def Dfa.pairFuel {A : Type} (a b : Dfa A) : Nat :=
  (a.graph.edges.length + 1) * (b.graph.edges.length + 1)

/-- The final worklist state of `Dfa::pair`. -/
def Dfa.pairRun {A : Type} [LinearOrder A] (a b : Dfa A) (f : Bool → Bool → Bool) : PairSt A :=
  a.pairLoop b f (a.pairFuel b) a.pairInit

/-- Model of `Dfa::pair`: `None` when no reached pair was accepting. -/
def Dfa.pair {A : Type} [LinearOrder A] (a b : Dfa A) (f : Bool → Bool → Bool) :
    Option (Dfa A) :=
  let st := a.pairRun b f
  if st.finals.isEmpty then none else some ⟨st.graph, st.finals⟩

/-- One lockstep successor of the `Dfa::pair_empty` worklist: `assigned`
insertion plus a push when the pair is new. -/
def Dfa.pairEmptyVisit
    (st : List (Nat × Nat) × List (Nat × Nat)) (s : Nat × Nat × Nat) :
    List (Nat × Nat) × List (Nat × Nat) :=
  if (s.2.1, s.2.2) ∈ st.1 then st
  else (st.1 ++ [(s.2.1, s.2.2)], (s.2.1, s.2.2) :: st.2)

/-- One step of the `Dfa::pair_empty` worklist state `(assigned, working)`. -/
def Dfa.pairEmptyStep {A : Type} (a b : Dfa A)
    (st : List (Nat × Nat) × List (Nat × Nat)) (item : Nat × Nat) :
    List (Nat × Nat) × List (Nat × Nat) :=
  (pairSuccs a b item).foldl Dfa.pairEmptyVisit st

/-- The fueled loop of `Dfa::pair_empty`: terminate `false` on the first
accepting pair, `true` on exhaustion. -/
def Dfa.pairEmptyLoop {A : Type} (a b : Dfa A) (f : Bool → Bool → Bool) :
    Nat → List (Nat × Nat) × List (Nat × Nat) → Bool
  | 0, _ => true
  | fuel + 1, st =>
    match st.2 with
    | [] => true
    | item :: rest =>
      if pairAccept a b f item then false
      else a.pairEmptyLoop b f fuel (a.pairEmptyStep b (st.1, rest) item)

/-- Model of `Dfa::pair_empty`. -/
def Dfa.pairEmpty {A : Type} (a b : Dfa A) (f : Bool → Bool → Bool) : Bool :=
  a.pairEmptyLoop b f (a.pairFuel b) ([(0, 0)], [(0, 0)])

/-- Product-pair reachability through the lockstep successor lists, from `(0,0)`. -/
def PairReach {A : Type} (a b : Dfa A) (p : Nat × Nat) : Prop :=
  Relation.ReflTransGen (fun p q => ∃ s ∈ pairSuccs a b p, (s.2.1, s.2.2) = q) (0, 0) p

/-! ## Specification-side definitions used by the claim statements -/

/-- The run used to witness C7: one state whose single edge names the
dangling transition id `5`. -/
def noSuchEdgeRun : Run Nat :=
  ⟨((Dma.new [0]).newState false [(0, 5)]).elim (Dma.new [0]) Prod.fst, 0⟩

/-- A slice is weakly sorted by label. -/
def labelSorted (slice : List (Option Nat × Nat)) : Prop :=
  slice.Pairwise fun e f => labelCode e.1 ≤ labelCode f.1

/-- The ε-labelled edges form a prefix of the slice: no ε label follows a
real one. -/
def epsLeading (slice : List (Option Nat × Nat)) : Prop :=
  slice.Pairwise fun e f => f.1 = none → e.1 = none

instance edgeLeTotal : IsTotal (Option Nat × Nat) edgeLe := by
  constructor
  intro a b
  unfold edgeLe
  rcases Nat.lt_trichotomy (labelCode a.1) (labelCode b.1) with h | h | h
  · exact Or.inl (Or.inl h)
  · rcases Nat.le_total a.2 b.2 with ht | ht
    · exact Or.inl (Or.inr ⟨h, ht⟩)
    · exact Or.inr (Or.inr ⟨h.symm, ht⟩)
  · exact Or.inr (Or.inl h)

instance edgeLeTrans : IsTrans (Option Nat × Nat) edgeLe := by
  constructor
  intro a b c hab hbc
  unfold edgeLe at hab hbc ⊢
  rcases hab with h₁ | ⟨h₁, h₁'⟩ <;> rcases hbc with h₂ | ⟨h₂, h₂'⟩
  · exact Or.inl (h₁.trans h₂)
  · exact Or.inl (h₂ ▸ h₁)
  · exact Or.inl (h₁ ▸ h₂)
  · exact Or.inr ⟨h₁.trans h₂, h₁'.trans h₂'⟩

/-- Every range of `rs` selects a slice of `es` satisfying `P`, and is
consistent with the length of `es`. -/
def slicesOk (P : List (Option Nat × Nat) → Prop) (es : List (Option Nat × Nat))
    (rs : List (Nat × Nat)) : Prop :=
  ∀ r ∈ rs, r.1 ≤ r.2 ∧ r.2 ≤ es.length ∧ P ((es.drop r.1).take (r.2 - r.1))

/-- The assigned product pairs (keys of the `assigned` map). -/
def domOf {A : Type} (st : PairSt A) : List (Nat × Nat) :=
  st.assigned.map Prod.fst

/-- The product pairs currently on the worklist. -/
def wpairsOf {A : Type} (st : PairSt A) : List (Nat × Nat) :=
  st.working.map fun t => (t.1, t.2.1)

/-- The lockstep successor pairs of a product pair. -/
def succsP {A : Type} (a b : Dfa A) (p : Nat × Nat) : List (Nat × Nat) :=
  (pairSuccs a b p).map fun s => (s.2.1, s.2.2)

/-- Every pair either worklist can ever assign: `(0,0)` or a pair of stored
edge targets of the two graphs. -/
def possPairs {A : Type} (a b : Dfa A) : Finset (Nat × Nat) :=
  (insert 0 (a.graph.edges.filterMap id).toFinset) ×ˢ
    (insert 0 (b.graph.edges.filterMap id).toFinset)

/-- The loop invariant of the `Dfa::pair` worklist. -/
structure PairInv {A : Type} (a b : Dfa A) (f : Bool → Bool → Bool) (st : PairSt A) :
    Prop where
  zeroMem : (0, 0) ∈ domOf st
  reach : ∀ p ∈ domOf st, PairReach a b p
  wlook : ∀ t ∈ st.working, alookup st.assigned (t.1, t.2.1) = some t.2.2
  processed : ∀ p ∈ domOf st, p ∉ wpairsOf st →
    (∀ q ∈ succsP a b p, q ∈ domOf st) ∧
    ∀ i, alookup st.assigned p = some i → (i ∈ st.finals ↔ pairAccept a b f p = true)
  finalsChar : ∀ i ∈ st.finals,
    ∃ p, alookup st.assigned p = some i ∧ pairAccept a b f p = true
  keysNodup : (domOf st).Nodup
  idsBound : ∀ e ∈ st.assigned, e.2 < st.graph.nextId
  idsInj : ∀ p q i, alookup st.assigned p = some i → alookup st.assigned q = some i → p = q
  domPoss : ∀ p ∈ domOf st, p ∈ possPairs a b

/-- The loop invariant of the `Dfa::pair_empty` worklist. -/
structure PairEInv {A : Type} (a b : Dfa A) (f : Bool → Bool → Bool)
    (st : List (Nat × Nat) × List (Nat × Nat)) : Prop where
  zeroMem : (0, 0) ∈ st.1
  reach : ∀ p ∈ st.1, PairReach a b p
  wsub : ∀ p ∈ st.2, p ∈ st.1
  processed : ∀ p ∈ st.1, p ∉ st.2 →
    (∀ q ∈ succsP a b p, q ∈ st.1) ∧ pairAccept a b f p = false
  nodup : st.1.Nodup
  poss : ∀ p ∈ st.1, p ∈ possPairs a b

/-- Joint postcondition of folding `pairVisit` over a successor list. -/
structure VisitFoldPost {A : Type} (a b : Dfa A) (st st' : PairSt A)
    (L : List (Nat × Nat × Nat)) : Prop where
  lookExt : ∀ p i, alookup st.assigned p = some i → alookup st'.assigned p = some i
  domExt : ∃ newKeys, domOf st' = domOf st ++ newKeys
  domNew : ∀ p ∈ domOf st', p ∈ domOf st ∨ p ∈ L.map fun s => (s.2.1, s.2.2)
  succIn : ∀ s ∈ L, (s.2.1, s.2.2) ∈ domOf st'
  workExt : ∃ pushed, st'.working = pushed ++ st.working ∧
      ∀ t ∈ pushed, (t.1, t.2.1) ∉ domOf st
  newInWork : ∀ p ∈ domOf st', p ∉ domOf st → p ∈ wpairsOf st'
  finalsEq : st'.finals = st.finals
  cnt : st'.working.length + st.assigned.length = st.working.length + st'.assigned.length
  nodup' : (domOf st').Nodup
  idsBound' : ∀ e ∈ st'.assigned, e.2 < st'.graph.nextId
  idsInj' : ∀ p q i, alookup st'.assigned p = some i → alookup st'.assigned q = some i → p = q
  wlook' : ∀ t ∈ st'.working, alookup st'.assigned (t.1, t.2.1) = some t.2.2
  domPoss' : ∀ p ∈ domOf st', p ∈ possPairs a b
  reach' : ∀ p ∈ domOf st', PairReach a b p

/-- Termination measure of both product worklists. -/
def pairMeasure {A : Type} (a b : Dfa A) (st : PairSt A) : Nat :=
  st.working.length + ((possPairs a b).card - st.assigned.length)

/-- A one-state accepting DFA over the alphabet `[0]`, used as a witness. -/
def dfaSelfLoop : Dfa Nat := ⟨⟨[0], [some 0], 1⟩, [0]⟩

/-- Joint postcondition of folding `pairEmptyVisit` over a successor list. -/
structure EVisitPost {A : Type} (a b : Dfa A) (st st' : List (Nat × Nat) × List (Nat × Nat))
    (L : List (Nat × Nat × Nat)) : Prop where
  domExt : ∃ newKeys, st'.1 = st.1 ++ newKeys
  succIn : ∀ s ∈ L, (s.2.1, s.2.2) ∈ st'.1
  cnt : st'.2.length + st.1.length = st.2.length + st'.1.length
  newInWork : ∀ p ∈ st'.1, p ∉ st.1 → p ∈ st'.2
  workExt : ∃ pushed, st'.2 = pushed ++ st.2
  nodup' : st'.1.Nodup
  poss' : ∀ p ∈ st'.1, p ∈ possPairs a b
  reach' : ∀ p ∈ st'.1, PairReach a b p
  wsub' : ∀ p ∈ st'.2, p ∈ st'.1

/-! ## Supporting lemmas -/

theorem alookup_append_self {κ β : Type} [DecidableEq κ] (l : List (κ × β)) (k : κ) (v : β)
    (h : alookup l k = none) : alookup (l ++ [(k, v)]) k = some v := by
  induction l with
  | nil => simp [alookup]
  | cons e rest ih =>
    rw [alookup] at h
    by_cases he : e.1 = k
    · simp [he] at h
    · cases e
      simp only [alookup, he, if_neg] at h ⊢
      simp only [List.cons_append, alookup, he, if_false]
      exact ih h

/-! ## Claim theorems -/

/-- Claim C1 (code bug). The NFA→DFA round trip does *not* preserve membership:
`into_dfa` records finality only for successor subsets, never for the initial
subset. For the DFA with edges `{(0,'a',1),(1,'a',1)}` and final set `{0}`
(state `0` accepting, unreachable by any edge), the original accepts the
empty word but `to_nfa().into_dfa([])` rejects it. -/
theorem Dfa.roundtrip_misses_initial_final :
    (Dfa.fromEdges [(0, 0, 1), (1, 0, 1)] [0]).map (fun d : Dfa Nat => d.contains [])
      = some (some true) ∧
    (Dfa.fromEdges [(0, 0, 1), (1, 0, 1)] [0]).map
        (fun d : Dfa Nat => (d.toNfa.intoDfa 20 []).map fun p => p.contains [])
      = some (some (some false)) := by
  constructor <;> decide

/-- Claim C4 (code bug). `to_regex` eliminates indices `0..nodes().len()` where
the `Nodes` iterator's `len` is the length of the flat **edge** vector. For
the NFA with the single edge `(0,'a',1)` and final state `1`, there are two
real states but one edge: only state `0` is eliminated, and `to_regex`
panics at its final `expect` instead of producing a regex root. -/
theorem Nfa.toRegex_elimination_count_is_edge_count :
    (Nfa.fromEdges [(0, some 0, 1)] [1]).map
        (fun n : Nfa Nat => (n.graph.nodeCount, n.graph.nodesLen, n.toRegex))
      = some (2, 1, none) := by
  decide

/-- Claim C5 (code bug). In `Dfa::from_edges` the final-state pass calls
`check.resize(c + 1, …)`, which *truncates* the per-source character sets.
For edges `{(0,'a',1),(1,'b',0)}` with final set `{0}` the two non-empty
per-source sets `{'a'}` and `{'b'}` differ, yet construction succeeds — the
resize drops node 1's set, and the alphabet becomes `['a']` alone. -/
theorem Dfa.fromEdges_check_truncated_by_finals :
    (Dfa.fromEdgesAccum [(0, 0, 1), (1, 1, 0)]).2 = [[0], [1]] ∧
    (Dfa.fromEdges [(0, 0, 1), (1, 1, 0)] [0]).map (fun d : Dfa Nat => d.graph.alphabet)
      = some [0] := by
  constructor <;> decide

/-- Claim C6 (code bug). `Dma::new_state` guards the edge list with
`assert!(edges.len() == edges.len())`, comparing the list's length with
itself: a state with zero edges is accepted into a DMA whose alphabet has
two characters. -/
theorem Dma.newState_accepts_mismatched_edge_count :
    ((Dma.new [0, 1]).newState false []).map (fun r : Dma Nat × Nat => (r.2, r.1.nextState))
      = some (0, 1) ∧
    ([] : List (Nat × Nat)).length ≠ (Dma.new [(0 : Nat), 1]).alphabet.length := by
  constructor <;> decide

/-- Model of `Dma::derive_state` leaves the DMA untouched whenever it returns an error:
every `Err` return precedes the `add_state` mutation. -/
theorem Dma.deriveState_error_unchanged {A : Type} [DecidableEq A] (m m' : Dma A)
    (blueprint creatorIdx : Nat) (e : DmaError)
    (h : m.deriveState blueprint creatorIdx = some (m', .error e)) : m' = m := by
  simp only [Dma.deriveState] at h
  split at h
  · simp only [Option.some.injEq, Prod.mk.injEq] at h
    exact h.1.symm
  · split at h
    · simp only [Option.some.injEq, Prod.mk.injEq] at h
      exact h.1.symm
    · split at h
      · exact absurd h (by simp)
      · split at h
        · exact absurd h (by simp)
        · simp only [Option.some.injEq, Prod.mk.injEq] at h
          exact h.1.symm
        · simp at h

/-- Claim C7 (confirmed). Whenever `Run::next` returns an error — `InvalidChar`,
`NoSuchEdge`, or any error propagated out of `derive_state` (`NoSuchState`,
`NoSuchCreator`, `InvalidChar`) — the run is returned unchanged: same current
state and same backing DMA (edge array, state count, accepting set). -/
theorem Run.next_error_preserves_run {A : Type} [DecidableEq A] (r r' : Run A) (ch : A)
    (e : DmaError) (h : r.next ch = some (r', some e)) : r' = r := by
  unfold Run.next at h
  split at h
  · simp only [Option.some.injEq, Prod.mk.injEq] at h
    exact h.1.symm
  · split at h
    · exact absurd h (by simp)
    · split at h
      · simp only [Option.some.injEq, Prod.mk.injEq] at h
        exact h.1.symm
      · rename_i kind hkind
        cases kind with
        | standard => simp [Run.transitionTo] at h
        | creating creatorIdx =>
          simp only [Run.transitionTo] at h
          split at h
          next => exact absurd h (by simp)
          next m e₂ hd =>
            simp only [Option.some.injEq, Prod.mk.injEq] at h
            have hm : m = r.backing := Dma.deriveState_error_unchanged _ _ _ _ _ hd
            rcases h with ⟨hr, _⟩
            subst hr
            simp [hm]
          next m s hd => simp at h

/-- Witness for C7: on that run, `next 0` reports `NoSuchEdge` and returns
the run unchanged. -/
theorem Run.next_error_preserves_run_witness : noSuchEdgeRun = noSuchEdgeRun :=
  Run.next_error_preserves_run noSuchEdgeRun noSuchEdgeRun 0 .NoSuchEdge rfl

/-- Claim C9 (confirmed). `Cached::insert` is idempotent per operation: a second
`insert` of the same operation returns the handle of the first and leaves the
cached regex (in particular its operation vector) unchanged. -/
theorem Cached.insert_idempotent {A : Type} [DecidableEq A] (c c₁ : Cached A) (op : ROp A)
    (h₁ : Nat) (h : c.insert op = some (c₁, h₁)) : c₁.insert op = some (c₁, h₁) := by
  unfold Cached.insert at h ⊢
  rcases ha : alookup c.cache op with _ | hdl
  · rw [ha] at h
    rcases hp : c.regex.push op with _ | rh
    · rw [hp] at h; exact absurd h (by simp)
    · rw [hp] at h
      simp only [Option.some.injEq, Prod.mk.injEq] at h
      rcases h with ⟨hc, hh⟩
      subst hc; subst hh
      simp only
      rw [alookup_append_self c.cache op rh.2 ha]
  · rw [ha] at h
    simp only [Option.some.injEq, Prod.mk.injEq] at h
    rcases h with ⟨hc, hh⟩
    subst hc; subst hh
    rw [ha]

/-- Witness for C9: inserting `Epsilon` twice into a fresh cache returns
handle 0 both times without growing the operation vector. -/
theorem Cached.insert_idempotent_witness :
    (Cached.insert (A := Nat) ⟨⟨[.epsilon]⟩, [(.epsilon, 0)]⟩ .epsilon)
      = some (⟨⟨[.epsilon]⟩, [(.epsilon, 0)]⟩, 0) :=
  Cached.insert_idempotent ⟨⟨[]⟩, []⟩ _ .epsilon 0 (by decide)

/-- Claim C10 (confirmed). For the NFA built from an empty edge list — whatever
the final-state set — every `contains` query panics (state `0` is never
materialised, so its edge lookup fails inside `epsilon_reach`), including the
query for the empty word. -/
theorem Nfa.contains_empty_graph_panics {A : Type} [LinearOrder A] (finals : List Nat)
    (w : List A) (fuel : Nat) (hf : 1 ≤ fuel) :
    (Nfa.fromEdges ([] : List (Nat × Option A × Nat)) finals).map
        (fun n => n.contains fuel w)
      = some none := by
  have hn : Nfa.fromEdges ([] : List (Nat × Option A × Nat)) finals
      = some ⟨⟨[], [], []⟩, finals⟩ := rfl
  rw [hn]
  obtain ⟨f, rfl⟩ : ∃ f, fuel = f + 1 := ⟨fuel - 1, (Nat.succ_pred_eq_of_pos hf).symm⟩
  have hreach : (⟨[], [], []⟩ : NGraph A).epsilonReach (f + 1) 0 = none := rfl
  simp [Nfa.contains, hreach]

/-- Witness for C10 at the empty word, empty final set, fuel 1. -/
theorem Nfa.contains_empty_graph_panics_witness :
    (Nfa.fromEdges ([] : List (Nat × Option Nat × Nat)) []).map (fun n => n.contains 1 [])
      = some none :=
  Nfa.contains_empty_graph_panics [] [] 1 (by decide)

/-! ## C8: ordering invariants of the finished graph -/

/-- The code `labelCode` is zero exactly on the ε label. -/
theorem labelCode_eq_zero {l : Option Nat} (h : labelCode l = 0) : l = none := by
  cases l with
  | none => rfl
  | some i => simp [labelCode] at h

/-- An `edgeLe`-smaller edge of an ε-labelled edge is itself ε-labelled. -/
theorem edgeLe_none_right {e f : Option Nat × Nat} (hef : edgeLe e f) (hf : f.1 = none) :
    e.1 = none := by
  rcases hef with h' | ⟨h', _⟩
  · rw [hf] at h'
    simp only [labelCode] at h'
    exact absurd h' (Nat.not_lt_zero _)
  · rw [hf] at h'
    simp only [labelCode] at h'
    exact labelCode_eq_zero h'

/-- A slice sorted under the full edge order is weakly label-sorted with the
ε edges as a prefix. -/
theorem sorted_edgeLe_invariants {slice : List (Option Nat × Nat)}
    (h : slice.Sorted edgeLe) : labelSorted slice ∧ epsLeading slice := by
  constructor
  · exact h.imp fun hef => by
      rcases hef with h' | ⟨h', _⟩
      · exact Nat.le_of_lt h'
      · exact Nat.le_of_eq h'
  · exact h.imp fun hef hf => edgeLe_none_right hef hf

/-- Slices wholly inside `es` are unaffected by appending to `es`. -/
theorem drop_take_append_of_le {β : Type} (es ch : List β) (s e : Nat)
    (he : e ≤ es.length) :
    ((es ++ ch).drop s).take (e - s) = (es.drop s).take (e - s) := by
  rw [List.drop_append_eq_append_drop, List.take_append_eq_append_take]
  have h0 : e - s - (es.drop s).length = 0 := by
    rw [List.length_drop]
    omega
  rw [h0]
  simp

/-- Appending a `P`-chunk and its range preserves `slicesOk`. -/
theorem slicesOk_append {P : List (Option Nat × Nat) → Prop}
    {es : List (Option Nat × Nat)} {rs : List (Nat × Nat)}
    (hok : slicesOk P es rs) {ch : List (Option Nat × Nat)} (hch : P ch) :
    slicesOk P (es ++ ch) (rs ++ [(es.length, es.length + ch.length)]) := by
  intro r hr
  rcases List.mem_append.1 hr with hr | hr
  · obtain ⟨h₁, h₂, h₃⟩ := hok r hr
    refine ⟨h₁, by simp; omega, ?_⟩
    rw [drop_take_append_of_le es ch r.1 r.2 h₂]
    exact h₃
  · simp only [List.mem_singleton] at hr
    subst hr
    refine ⟨by omega, by simp, ?_⟩
    rw [List.drop_left, Nat.add_sub_cancel_left, List.take_length]
    exact hch

/-- The step `finishStep` preserves `slicesOk` for sortedness. -/
theorem finishStep_slicesOk {A : Type} [LinearOrder A] (b : NBuilder A)
    {acc acc' : List (Option Nat × Nat) × List (Nat × Nat)}
    {node : List (Nat × Nat) × List Nat}
    (hok : slicesOk (List.Sorted edgeLe) acc.1 acc.2)
    (h : b.finishStep acc node = some acc') :
    slicesOk (List.Sorted edgeLe) acc'.1 acc'.2 := by
  unfold NBuilder.finishStep at h
  rcases hm : node.1.mapM fun e => (b.characterLabel e.1).map fun l => ((some l : Option Nat), e.2)
    with _ | labelled
  · rw [hm] at h; exact absurd h (by simp)
  · rw [hm] at h
    simp only [Option.bind_eq_bind, Option.some_bind, pure, Option.some.injEq] at h
    subst h
    exact slicesOk_append hok (List.sorted_insertionSort edgeLe _)

/-- The fold of `Builder::finish` preserves `slicesOk`. -/
theorem finishFold_slicesOk {A : Type} [LinearOrder A] (b : NBuilder A) :
    ∀ (nodes : List (List (Nat × Nat) × List Nat))
      (acc res : List (Option Nat × Nat) × List (Nat × Nat)),
      slicesOk (List.Sorted edgeLe) acc.1 acc.2 →
      nodes.foldlM b.finishStep acc = some res →
      slicesOk (List.Sorted edgeLe) res.1 res.2 := by
  intro nodes
  induction nodes with
  | nil =>
    intro acc res hok h
    simp only [List.foldlM_nil, pure, Option.some.injEq] at h
    exact h ▸ hok
  | cons x xs ih =>
    intro acc res hok h
    rw [List.foldlM_cons] at h
    rcases hs : b.finishStep acc x with _ | acc'
    · rw [hs] at h; exact absurd h (by simp)
    · rw [hs] at h
      simp only [Option.bind_eq_bind, Option.some_bind] at h
      exact ih acc' res (finishStep_slicesOk b hok hs) h

/-- A graph whose `(edges, ranges)` satisfy `slicesOk P` yields only
`P`-slices through `edgesSlice`. -/
theorem slicesOk_edgesSlice {A : Type} {P : List (Option Nat × Nat) → Prop}
    (g : NGraph A) (hok : slicesOk P g.edges g.ranges) (node : Nat)
    (slice : List (Option Nat × Nat)) (h : g.edgesSlice node = some slice) : P slice := by
  unfold NGraph.edgesSlice at h
  split at h
  · exact absurd h (by simp)
  · rename_i r hr
    split_ifs at h with hc
    simp only [Option.some.injEq] at h
    obtain ⟨_, _, h₃⟩ := hok r (List.get?_mem hr)
    exact h ▸ h₃

/-- Elements of `enumFrom` have pairwise strictly increasing indices. -/
theorem pairwise_fst_lt_enumFrom {β : Type} :
    ∀ (l : List β) (n : Nat), (l.enumFrom n).Pairwise fun p q => p.1 < q.1 := by
  intro l
  induction l with
  | nil => intro n; simp
  | cons x xs ih =>
    intro n
    simp only [List.enumFrom_cons]
    refine List.Pairwise.cons ?_ (ih (n + 1))
    intro q hq
    have := (List.mk_mem_enumFrom_iff_le_and_getElem?_sub (n := n + 1) (i := q.1) (x := q.2)
      (l := xs)).1 (by simpa using hq)
    omega

/-- The per-node chunk of `from_deterministic` is sorted: its labels are the
strictly increasing slot indices. -/
theorem fromDet_chunk_sorted {A : Type} (d : Det A) (node : Nat) :
    List.Sorted edgeLe
      ((((d.edges.drop (node * d.alphabet.length)).take d.alphabet.length).enum).filterMap
        fun p => p.2.map fun t => (some p.1, t)) := by
  refine List.Pairwise.filterMap _ ?_ (pairwise_fst_lt_enumFrom _ 0)
  intro a b hab x hx y hy
  rcases a with ⟨i, oa⟩
  rcases b with ⟨j, ob⟩
  cases oa with
  | none => simp at hx
  | some t =>
    cases ob with
    | none => simp at hy
    | some u =>
      simp only [Option.map_some', Option.mem_def, Option.some.injEq] at hx hy
      subst hx; subst hy
      exact Or.inl (by simpa [labelCode] using hab)

/-- One step of the `from_deterministic` fold preserves `slicesOk`. -/
theorem fromDetStep_slicesOk {A : Type} (d : Det A)
    {acc : List (Option Nat × Nat) × List (Nat × Nat)} (node : Nat)
    (hok : slicesOk (List.Sorted edgeLe) acc.1 acc.2) :
    slicesOk (List.Sorted edgeLe) (NGraph.fromDetStep d acc node).1
      (NGraph.fromDetStep d acc node).2 :=
  slicesOk_append hok (fromDet_chunk_sorted d node)

/-- The fold of `from_deterministic` preserves `slicesOk`. -/
theorem fromDetFold_slicesOk {A : Type} (d : Det A) :
    ∀ (nodes : List Nat) (acc : List (Option Nat × Nat) × List (Nat × Nat)),
      slicesOk (List.Sorted edgeLe) acc.1 acc.2 →
      slicesOk (List.Sorted edgeLe) (nodes.foldl (NGraph.fromDetStep d) acc).1
        (nodes.foldl (NGraph.fromDetStep d) acc).2 := by
  intro nodes
  induction nodes with
  | nil => intro acc hok; simpa using hok
  | cons x xs ih =>
    intro acc hok
    rw [List.foldl_cons]
    exact ih _ (fromDetStep_slicesOk d x hok)

/-- Claim C8 (confirmed). Every graph finished by `Builder::finish`, and every
graph obtained by `from_deterministic` from a deterministic graph with a
sorted alphabet, satisfies the finished-form invariants: each node's slice of
the flat edge array is sorted by label with the ε edges forming a prefix, and
the `characters` vector is sorted. -/
theorem NGraph.finished_form_invariants {A : Type} [LinearOrder A] :
    (∀ (b : NBuilder A) (g : NGraph A), b.finish = some g →
      List.Sorted (· ≤ ·) g.characters ∧
      ∀ (node : Nat) (slice : List (Option Nat × Nat)),
        g.edgesSlice node = some slice → labelSorted slice ∧ epsLeading slice) ∧
    (∀ d : Det A, List.Sorted (· ≤ ·) d.alphabet →
      List.Sorted (· ≤ ·) (NGraph.fromDeterministic d).characters ∧
      ∀ (node : Nat) (slice : List (Option Nat × Nat)),
        (NGraph.fromDeterministic d).edgesSlice node = some slice →
          labelSorted slice ∧ epsLeading slice) := by
  constructor
  · intro b g hg
    unfold NBuilder.finish at hg
    rcases hf : (b.edges.zip b.epsilons).foldlM b.finishStep ([], []) with _ | folded
    · rw [hf] at hg; exact absurd hg (by simp)
    · rw [hf] at hg
      simp only [Option.bind_eq_bind, Option.some_bind, pure, Option.some.injEq] at hg
      have hok : slicesOk (List.Sorted edgeLe) folded.1 folded.2 :=
        finishFold_slicesOk b _ ([], []) folded (by intro r hr; simp at hr) hf
      constructor
      · rw [← hg]
        exact List.sorted_insertionSort (· ≤ ·) b.characters
      · intro node slice hs
        rw [← hg] at hs
        exact sorted_edgeLe_invariants (slicesOk_edgesSlice ⟨_, folded.1, folded.2⟩ hok node slice hs)
  · intro d hd
    have hok : slicesOk (List.Sorted edgeLe)
        ((List.range d.nextId).foldl (NGraph.fromDetStep d) ([], [])).1
        ((List.range d.nextId).foldl (NGraph.fromDetStep d) ([], [])).2 :=
      fromDetFold_slicesOk d _ ([], []) (by intro r hr; simp at hr)
    constructor
    · exact hd
    · intro node slice hs
      exact sorted_edgeLe_invariants (slicesOk_edgesSlice _ hok node slice hs)

/-- Witness for C8: the finished graph of the builder holding the S2 test
edges, and the deterministic graph of a one-symbol alphabet. -/
theorem NGraph.finished_form_invariants_witness :
    (List.Sorted (· ≤ ·) (⟨[0, 1], [(none, 1), (some 0, 0), (some 1, 1), (some 0, 0)],
        [(0, 3), (3, 4)]⟩ : NGraph Nat).characters ∧
      ∀ (node : Nat) (slice : List (Option Nat × Nat)),
        (⟨[0, 1], [(none, 1), (some 0, 0), (some 1, 1), (some 0, 0)],
          [(0, 3), (3, 4)]⟩ : NGraph Nat).edgesSlice node = some slice →
          labelSorted slice ∧ epsLeading slice) ∧
    (List.Sorted (· ≤ ·) (NGraph.fromDeterministic (⟨[0], [some 0], 1⟩ : Det Nat)).characters ∧
      ∀ (node : Nat) (slice : List (Option Nat × Nat)),
        (NGraph.fromDeterministic (⟨[0], [some 0], 1⟩ : Det Nat)).edgesSlice node = some slice →
          labelSorted slice ∧ epsLeading slice) := by
  constructor
  · exact NGraph.finished_form_invariants.1
      (NBuilder.empty.insert 0 (some 0) 0 |>.insert 0 none 1 |>.insert 0 (some 1) 1
        |>.insert 1 (some 0) 0) _ (by decide)
  · exact NGraph.finished_form_invariants.2 (⟨[0], [some 0], 1⟩ : Det Nat)
      (by simp [List.sorted_singleton])

/-! ## C2/C3: the product worklists -/

theorem alookup_mem {κ β : Type} [DecidableEq κ] {l : List (κ × β)} {k : κ} {v : β}
    (h : alookup l k = some v) : (k, v) ∈ l := by
  induction l with
  | nil => simp [alookup] at h
  | cons e rest ih =>
    rcases e with ⟨k₁, v₁⟩
    rw [alookup] at h
    by_cases he : k₁ = k
    · simp only [he, if_true, Option.some.injEq] at h
      subst he; subst h
      exact List.mem_cons.2 (Or.inl rfl)
    · simp only [he, if_false] at h
      exact List.mem_cons_of_mem _ (ih h)

theorem alookup_mem_dom {κ β : Type} [DecidableEq κ] {l : List (κ × β)} {k : κ} {v : β}
    (h : alookup l k = some v) : k ∈ l.map Prod.fst := by
  exact List.mem_map.2 ⟨(k, v), alookup_mem h, rfl⟩

theorem alookup_isSome_of_mem {κ β : Type} [DecidableEq κ] {l : List (κ × β)} {k : κ}
    (h : k ∈ l.map Prod.fst) : ∃ v, alookup l k = some v := by
  induction l with
  | nil => simp at h
  | cons e rest ih =>
    rw [alookup]
    by_cases he : e.1 = k
    · exact ⟨e.2, by simp [he]⟩
    · simp only [he, if_false]
      rcases List.mem_map.1 h with ⟨x, hx, hk⟩
      rcases List.mem_cons.1 hx with hx | hx
      · exact absurd (hx ▸ hk) he
      · exact ih (List.mem_map.2 ⟨x, hx, hk⟩)

theorem alookup_none_of_not_mem {κ β : Type} [DecidableEq κ] {l : List (κ × β)} {k : κ}
    (h : k ∉ l.map Prod.fst) : alookup l k = none := by
  induction l with
  | nil => rfl
  | cons e rest ih =>
    rw [alookup]
    by_cases he : e.1 = k
    · exact absurd (List.mem_map.2 ⟨e, List.mem_cons_self e rest, he⟩) h
    · simp only [he, if_false]
      exact ih fun hm => h (by simp [List.mem_map] at hm ⊢; tauto)

theorem alookup_not_mem_of_none {κ β : Type} [DecidableEq κ] {l : List (κ × β)} {k : κ}
    (h : alookup l k = none) : k ∉ l.map Prod.fst := by
  intro hm
  rcases alookup_isSome_of_mem hm with ⟨v, hv⟩
  rw [h] at hv
  exact absurd hv (by simp)

theorem alookup_append_of_some {κ β : Type} [DecidableEq κ] {l₁ : List (κ × β)}
    (l₂ : List (κ × β)) {k : κ} {v : β} (h : alookup l₁ k = some v) :
    alookup (l₁ ++ l₂) k = some v := by
  induction l₁ with
  | nil => simp [alookup] at h
  | cons e rest ih =>
    rw [alookup] at h
    rw [List.cons_append, alookup]
    by_cases he : e.1 = k
    · simpa [he] using h
    · simp only [he, if_false] at h ⊢
      exact ih h

theorem alookup_append_of_none {κ β : Type} [DecidableEq κ] {l₁ : List (κ × β)}
    (l₂ : List (κ × β)) {k : κ} (h : alookup l₁ k = none) :
    alookup (l₁ ++ l₂) k = alookup l₂ k := by
  induction l₁ with
  | nil => rfl
  | cons e rest ih =>
    rw [alookup] at h
    rw [List.cons_append, alookup]
    by_cases he : e.1 = k
    · simp [he] at h
    · simp only [he, if_false] at h ⊢
      exact ih h

theorem mem_sinsert {β : Type} [DecidableEq β] {l : List β} {c x : β} :
    x ∈ sinsert l c ↔ x ∈ l ∨ x = c := by
  unfold sinsert
  by_cases hc : c ∈ l
  · simp only [hc, if_true]
    constructor
    · exact Or.inl
    · rintro (h | rfl)
      · exact h
      · exact hc
  · simp [hc]

/-- Targets yielded by `iter_edges` are stored in the flat edge vector. -/
theorem iterEdges_target_mem {A : Type} {d : Det A} {n : Nat} {e : Nat × Nat}
    (h : e ∈ d.iterEdges n) : some e.2 ∈ d.edges := by
  unfold Det.iterEdges at h
  rcases hs : d.edgeSlots n with _ | slots
  · rw [hs] at h; simp at h
  · rw [hs] at h
    rcases List.mem_filterMap.1 h with ⟨⟨j, o⟩, hmem, heq⟩
    cases o with
    | none => simp at heq
    | some t =>
      simp only [Option.map_some', Option.some.injEq] at heq
      have hto : some t ∈ slots := by
        have hg := List.mk_mem_enum_iff_getElem?.1 hmem
        exact List.getElem?_mem hg
      have hslots : ∀ x ∈ slots, x ∈ d.edges := by
        unfold Det.edgeSlots at hs
        split_ifs at hs with hn
        simp only [Option.some.injEq] at hs
        intro x hx
        rw [← hs] at hx
        exact List.mem_of_mem_drop (List.mem_of_mem_take hx)
      subst heq
      exact hslots _ hto

/-- Lockstep successor pairs lie in `possPairs`. -/
theorem succsP_mem_poss {A : Type} (a b : Dfa A) {p q : Nat × Nat}
    (h : q ∈ succsP a b p) : q ∈ possPairs a b := by
  rcases List.mem_map.1 h with ⟨s, hs, rfl⟩
  rcases List.mem_map.1 hs with ⟨z, hz, rfl⟩
  rcases List.of_mem_zip hz with ⟨hza, hzb⟩
  have ha : some z.1.2 ∈ a.graph.edges := iterEdges_target_mem hza
  have hb : some z.2.2 ∈ b.graph.edges := iterEdges_target_mem hzb
  refine Finset.mem_product.2 ⟨?_, ?_⟩
  · exact Finset.mem_insert.2 (Or.inr (List.mem_toFinset.2
      (List.mem_filterMap.2 ⟨some z.1.2, ha, rfl⟩)))
  · exact Finset.mem_insert.2 (Or.inr (List.mem_toFinset.2
      (List.mem_filterMap.2 ⟨some z.2.2, hb, rfl⟩)))

/-- The pair `(0,0)` lies in `possPairs`. -/
theorem zero_mem_poss {A : Type} (a b : Dfa A) : ((0, 0) : Nat × Nat) ∈ possPairs a b :=
  Finset.mem_product.2 ⟨Finset.mem_insert_self 0 _, Finset.mem_insert_self 0 _⟩

/-- The cardinality of `possPairs` is dominated by `pairFuel`. -/
theorem possPairs_card_le {A : Type} (a b : Dfa A) :
    (possPairs a b).card ≤ a.pairFuel b := by
  unfold possPairs Dfa.pairFuel
  rw [Finset.card_product]
  refine Nat.mul_le_mul ?_ ?_
  · refine (Finset.card_insert_le _ _).trans ?_
    have h₁ := List.toFinset_card_le (a.graph.edges.filterMap id)
    have h₂ := List.length_filterMap_le id a.graph.edges
    omega
  · refine (Finset.card_insert_le _ _).trans ?_
    have h₁ := List.toFinset_card_le (b.graph.edges.filterMap id)
    have h₂ := List.length_filterMap_le id b.graph.edges
    omega

/-- A duplicate-free list inside a finset is no longer than the finset's card. -/
theorem nodup_length_le_card {β : Type} [DecidableEq β] {l : List β} {s : Finset β}
    (hnd : l.Nodup) (hsub : ∀ x ∈ l, x ∈ s) : l.length ≤ s.card := by
  have h₁ : l.toFinset.card = l.length := List.toFinset_card_of_nodup hnd
  have h₂ : l.toFinset ⊆ s := fun x hx => hsub x (List.mem_toFinset.1 hx)
  rw [← h₁]
  exact Finset.card_le_card h₂

theorem Det.writeEdge_nextId {A : Type} (d : Det A) (n s t : Nat) :
    (d.writeEdge n s t).nextId = d.nextId := rfl

theorem pairVisit_fold {A : Type} (a b : Dfa A) (selfId : Nat) :
    ∀ (L : List (Nat × Nat × Nat)) (st : PairSt A),
      (∀ s ∈ L, (s.2.1, s.2.2) ∈ possPairs a b) →
      (∀ s ∈ L, PairReach a b (s.2.1, s.2.2)) →
      (domOf st).Nodup →
      (∀ e ∈ st.assigned, e.2 < st.graph.nextId) →
      (∀ p q i, alookup st.assigned p = some i → alookup st.assigned q = some i → p = q) →
      (∀ t ∈ st.working, alookup st.assigned (t.1, t.2.1) = some t.2.2) →
      (∀ p ∈ domOf st, p ∈ possPairs a b) →
      (∀ p ∈ domOf st, PairReach a b p) →
      VisitFoldPost a b st (L.foldl (Dfa.pairVisit selfId) st) L := by
  intro L
  induction L with
  | nil =>
    intro st _ _ hnd hbound hinj hwl hposs hreach
    rw [List.foldl_nil]
    exact
      { lookExt := fun p i h => h
        domExt := ⟨[], (List.append_nil _).symm⟩
        domNew := fun p hp => Or.inl hp
        succIn := by intro s hs; simp at hs
        workExt := ⟨[], rfl, by intro t ht; simp at ht⟩
        newInWork := fun p hp hnp => absurd hp hnp
        finalsEq := rfl
        cnt := rfl
        nodup' := hnd
        idsBound' := hbound
        idsInj' := hinj
        wlook' := hwl
        domPoss' := hposs
        reach' := hreach }
  | cons s L ih =>
    intro st hLposs hLreach hnd hbound hinj hwl hposs hreach
    rw [List.foldl_cons]
    rcases halo : alookup st.assigned (s.2.1, s.2.2) with _ | i
    · -- vacant: a fresh id is assigned and the pair pushed
      have hVac : Dfa.pairVisit selfId st s
          = ⟨st.assigned ++ [((s.2.1, s.2.2), st.graph.nextId)],
             (s.2.1, s.2.2, st.graph.nextId) :: st.working,
             (st.graph.node.1.writeEdge selfId s.1 st.graph.nextId), st.finals⟩ := by
        unfold Dfa.pairVisit
        rw [halo]
        rfl
      rw [hVac]
      set k : Nat × Nat := (s.2.1, s.2.2) with hk
      set n : Nat := st.graph.nextId with hn
      set st₁ : PairSt A := ⟨st.assigned ++ [(k, n)], (k.1, k.2, n) :: st.working,
        st.graph.node.1.writeEdge selfId s.1 n, st.finals⟩ with hst₁
      have hkdom : k ∉ domOf st := alookup_not_mem_of_none halo
      have hdom₁ : domOf st₁ = domOf st ++ [k] := by simp [domOf, hst₁]
      have hlook₁ : ∀ p i, alookup st.assigned p = some i →
          alookup st₁.assigned p = some i := fun p i h =>
        alookup_append_of_some _ h
      have hlookNew : alookup st₁.assigned k = some n := by
        show alookup (st.assigned ++ [(k, n)]) k = some n
        rw [alookup_append_of_none _ halo]
        simp [alookup]
      have hnextId₁ : st₁.graph.nextId = st.graph.nextId + 1 := rfl
      have hlookCases : ∀ p i, alookup st₁.assigned p = some i →
          alookup st.assigned p = some i ∨ (p = k ∧ i = n) := by
        intro p i h
        rcases hcase : alookup st.assigned p with _ | j
        · right
          rw [show st₁.assigned = st.assigned ++ [(k, n)] from rfl,
            alookup_append_of_none _ hcase, alookup] at h
          by_cases hpk : k = p
          · simp only [hpk, if_true, Option.some.injEq] at h
            exact ⟨hpk.symm, h.symm⟩
          · simp [hpk, alookup] at h
        · left
          have h2 := hlook₁ p j hcase
          rw [h2] at h
          exact h
      have hbound' : ∀ e ∈ st₁.assigned, e.2 < st₁.graph.nextId := by
        intro e he
        rcases List.mem_append.1 he with he | he
        · have := hbound e he
          omega
        · simp only [List.mem_singleton] at he
          subst he
          omega
      have hnd₁ : (domOf st₁).Nodup := by
        rw [hdom₁, List.nodup_append]
        exact ⟨hnd, List.nodup_singleton _, by
          intro x hx hxk
          simp only [List.mem_singleton] at hxk
          subst hxk
          exact hkdom hx⟩
      have hinj₁ : ∀ p q i, alookup st₁.assigned p = some i →
          alookup st₁.assigned q = some i → p = q := by
        intro p q i hp hq
        rcases hlookCases p i hp with hp' | ⟨rfl, rfl⟩
        · rcases hlookCases q i hq with hq' | ⟨rfl, hqn⟩
          · exact hinj p q i hp' hq'
          · have := hbound _ (alookup_mem hp')
            omega
        · rcases hlookCases q n hq with hq' | ⟨rfl, _⟩
          · have := hbound _ (alookup_mem hq')
            omega
          · rfl
      have hwl₁ : ∀ t ∈ st₁.working, alookup st₁.assigned (t.1, t.2.1) = some t.2.2 := by
        intro t ht
        rcases List.mem_cons.1 ht with rfl | ht
        · exact hlookNew
        · exact hlook₁ _ _ (hwl t ht)
      have hposs₁ : ∀ p ∈ domOf st₁, p ∈ possPairs a b := by
        intro p hp
        rw [hdom₁] at hp
        rcases List.mem_append.1 hp with hp | hp
        · exact hposs p hp
        · simp only [List.mem_singleton] at hp
          subst hp
          exact hLposs s (List.mem_cons_self s L)
      have hreach₁ : ∀ p ∈ domOf st₁, PairReach a b p := by
        intro p hp
        rw [hdom₁] at hp
        rcases List.mem_append.1 hp with hp | hp
        · exact hreach p hp
        · simp only [List.mem_singleton] at hp
          subst hp
          exact hLreach s (List.mem_cons_self s L)
      have post := ih st₁ (fun x hx => hLposs x (List.mem_cons_of_mem _ hx))
        (fun x hx => hLreach x (List.mem_cons_of_mem _ hx)) hnd₁ hbound' hinj₁ hwl₁
        hposs₁ hreach₁
      refine
        { lookExt := fun p i h => post.lookExt p i (hlook₁ p i h)
          domExt := ?_
          domNew := ?_
          succIn := ?_
          workExt := ?_
          newInWork := ?_
          finalsEq := post.finalsEq
          cnt := ?_
          nodup' := post.nodup'
          idsBound' := post.idsBound'
          idsInj' := post.idsInj'
          wlook' := post.wlook'
          domPoss' := post.domPoss'
          reach' := post.reach' }
      · rcases post.domExt with ⟨newKeys, hnew⟩
        exact ⟨[k] ++ newKeys, by rw [hnew, hdom₁, List.append_assoc]⟩
      · intro p hp
        rcases post.domNew p hp with hp' | hp'
        · rw [hdom₁] at hp'
          rcases List.mem_append.1 hp' with hp' | hp'
          · exact Or.inl hp'
          · simp only [List.mem_singleton] at hp'
            subst hp'
            exact Or.inr (by simp)
        · exact Or.inr (by simp [List.mem_map] at hp' ⊢; tauto)
      · intro x hx
        rcases List.mem_cons.1 hx with rfl | hx
        · rcases post.domExt with ⟨newKeys, hnew⟩
          rw [hnew, hdom₁]
          exact List.mem_append_left _ (List.mem_append_right _ (by simp))
        · exact post.succIn x hx
      · rcases post.workExt with ⟨pushed, hpw, hpnew⟩
        refine ⟨pushed ++ [(k.1, k.2, n)], ?_, ?_⟩
        · rw [hpw]
          show pushed ++ st₁.working = pushed ++ [(k.1, k.2, n)] ++ st.working
          rw [List.append_assoc]
          rfl
        · intro t ht
          rcases List.mem_append.1 ht with ht | ht
          · intro hmem
            exact hpnew t ht (by rw [hdom₁]; exact List.mem_append_left _ hmem)
          · simp only [List.mem_singleton] at ht
            subst ht
            exact hkdom
      · intro p hp hnp
        by_cases hpk : p = k
        · subst hpk
          rcases post.workExt with ⟨pushed, hpw, _⟩
          unfold wpairsOf
          refine List.mem_map.2 ⟨(k.1, k.2, n), ?_, rfl⟩
          rw [hpw]
          exact List.mem_append_right _ (List.mem_cons_self _ _)
        · have hp₁ : p ∉ domOf st₁ := by
            rw [hdom₁]
            intro hmem
            rcases List.mem_append.1 hmem with hmem | hmem
            · exact hnp hmem
            · simp only [List.mem_singleton] at hmem
              exact hpk hmem
          exact post.newInWork p hp hp₁
      · have h₁ : st₁.working.length = st.working.length + 1 := rfl
        have h₂ : st₁.assigned.length = st.assigned.length + 1 := by
          show (st.assigned ++ [(k, n)]).length = st.assigned.length + 1
          simp
        have := post.cnt
        omega
    · -- occupied: only the product edge is written
      have hOcc : Dfa.pairVisit selfId st s
          = { st with graph := st.graph.writeEdge selfId s.1 i } := by
        unfold Dfa.pairVisit
        rw [halo]
      rw [hOcc]
      set st₁ : PairSt A := { st with graph := st.graph.writeEdge selfId s.1 i } with hst₁
      have hdomEq : domOf st₁ = domOf st := rfl
      have hnext : st₁.graph.nextId = st.graph.nextId := rfl
      have post := ih st₁ (fun x hx => hLposs x (List.mem_cons_of_mem _ hx))
        (fun x hx => hLreach x (List.mem_cons_of_mem _ hx)) hnd
        (by rw [show st₁.graph.nextId = st.graph.nextId from rfl]; exact hbound)
        hinj hwl hposs hreach
      refine
        { lookExt := post.lookExt
          domExt := post.domExt
          domNew := ?_
          succIn := ?_
          workExt := post.workExt
          newInWork := post.newInWork
          finalsEq := post.finalsEq
          cnt := post.cnt
          nodup' := post.nodup'
          idsBound' := post.idsBound'
          idsInj' := post.idsInj'
          wlook' := post.wlook'
          domPoss' := post.domPoss'
          reach' := post.reach' }
      · intro p hp
        rcases post.domNew p hp with hp' | hp'
        · exact Or.inl hp'
        · exact Or.inr (by simp [List.mem_map] at hp' ⊢; tauto)
      · intro x hx
        rcases List.mem_cons.1 hx with rfl | hx
        · rcases post.domExt with ⟨newKeys, hnew⟩
          rw [hnew]
          exact List.mem_append_left _ (alookup_mem_dom halo)
        · exact post.succIn x hx

theorem domOf_length {A : Type} (st : PairSt A) : (domOf st).length = st.assigned.length := by
  simp [domOf]

/-- One `pair` worklist step: the invariant is preserved and the measure
strictly decreases. -/
theorem pairStep_post {A : Type} [LinearOrder A] (a b : Dfa A) (f : Bool → Bool → Bool)
    (st : PairSt A) (item : Nat × Nat × Nat) (rest : List (Nat × Nat × Nat))
    (hinv : PairInv a b f st) (hw : st.working = item :: rest) :
    PairInv a b f (a.pairStep b f { st with working := rest } item) ∧
      pairMeasure a b (a.pairStep b f { st with working := rest } item) + 1
        ≤ pairMeasure a b st := by
  have hitem : item ∈ st.working := hw ▸ List.mem_cons_self item rest
  have hlook₀ : alookup st.assigned (item.1, item.2.1) = some item.2.2 := hinv.wlook item hitem
  have hp₀dom : (item.1, item.2.1) ∈ domOf st := alookup_mem_dom hlook₀
  have hp₀reach : PairReach a b (item.1, item.2.1) := hinv.reach _ hp₀dom
  set p₀ : Nat × Nat := (item.1, item.2.1) with hp₀
  set finals' : List Nat :=
    if pairAccept a b f p₀ then sinsert st.finals item.2.2 else st.finals with hf'
  set st₀ : PairSt A := ⟨st.assigned, rest, st.graph, finals'⟩ with hst₀
  have hstep : a.pairStep b f { st with working := rest } item
      = (pairSuccs a b p₀).foldl (Dfa.pairVisit item.2.2) st₀ := rfl
  have hfinChar₀ : ∀ i ∈ finals', ∃ p, alookup st.assigned p = some i ∧
      pairAccept a b f p = true := by
    intro i hi
    rw [hf'] at hi
    by_cases hacc : pairAccept a b f p₀ = true
    · rw [if_pos hacc] at hi
      rcases mem_sinsert.1 hi with hi | rfl
      · exact hinv.finalsChar i hi
      · exact ⟨p₀, hlook₀, hacc⟩
    · rw [if_neg (by simpa using hacc)] at hi
      exact hinv.finalsChar i hi
  have post := pairVisit_fold a b item.2.2 (pairSuccs a b p₀) st₀
    (fun s hs => succsP_mem_poss a b (List.mem_map.2 ⟨s, hs, rfl⟩))
    (fun s hs => hp₀reach.tail ⟨s, hs, rfl⟩)
    hinv.keysNodup hinv.idsBound hinv.idsInj
    (fun t ht => hinv.wlook t (hw ▸ List.mem_cons_of_mem item ht))
    hinv.domPoss hinv.reach
  rw [← hstep] at post
  set st₁ : PairSt A := a.pairStep b f { st with working := rest } item with hst₁
  have hdomSub : ∀ p ∈ domOf st, p ∈ domOf st₁ := by
    rcases post.domExt with ⟨newKeys, hnew⟩
    intro p hp
    rw [show domOf st₁ = domOf st₀ ++ newKeys from hnew]
    exact List.mem_append_left _ hp
  have hfinals₁ : st₁.finals = finals' := post.finalsEq
  have hwsub : ∀ p, p ∉ wpairsOf st₁ → p ≠ p₀ → p ∉ wpairsOf st := by
    intro p hp hne hmem
    rcases post.workExt with ⟨pushed, hpw, _⟩
    rcases List.mem_map.1 hmem with ⟨t, ht, rfl⟩
    rw [hw] at ht
    rcases List.mem_cons.1 ht with rfl | ht
    · exact hne rfl
    · exact hp (List.mem_map.2 ⟨t, by rw [hpw]; exact List.mem_append_right _ ht, rfl⟩)
  have hnotFin : pairAccept a b f p₀ = false → item.2.2 ∉ st.finals := by
    intro hacc hmem
    rcases hinv.finalsChar _ hmem with ⟨q, hlq, haq⟩
    have := hinv.idsInj q p₀ item.2.2 hlq hlook₀
    rw [this] at haq
    rw [haq] at hacc
    exact absurd hacc (by simp)
  have hinv₁ : PairInv a b f st₁ :=
    { zeroMem := hdomSub _ hinv.zeroMem
      reach := post.reach'
      wlook := post.wlook'
      keysNodup := post.nodup'
      idsBound := post.idsBound'
      idsInj := post.idsInj'
      domPoss := post.domPoss'
      finalsChar := by
        intro i hi
        rw [hfinals₁] at hi
        rcases hfinChar₀ i hi with ⟨p, hlp, hap⟩
        exact ⟨p, post.lookExt p i hlp, hap⟩
      processed := by
        intro p hp hnw
        by_cases hpd : p ∈ domOf st
        · have hlookp : ∀ i, alookup st₁.assigned p = some i →
              alookup st.assigned p = some i := by
            intro i hi
            rcases alookup_isSome_of_mem hpd with ⟨i₀, hi₀⟩
            have := post.lookExt p i₀ hi₀
            rw [this] at hi
            obtain rfl := Option.some.inj hi
            exact hi₀
          by_cases hpp : p = p₀
          · subst hpp
            constructor
            · intro q hq
              rcases List.mem_map.1 hq with ⟨s, hs, rfl⟩
              exact post.succIn s hs
            · intro i hi
              have hi' := hlookp i hi
              rw [hlook₀] at hi'
              obtain rfl := Option.some.inj hi'.symm
              rw [hfinals₁, hf']
              by_cases hacc : pairAccept a b f p₀ = true
              · rw [if_pos hacc, hacc]
                simp [mem_sinsert]
              · have hacc' : pairAccept a b f p₀ = false := by
                  simpa using hacc
                rw [if_neg (by simp [hacc'])]
                simp [hacc', hnotFin hacc']
          · have hnw₀ : p ∉ wpairsOf st := hwsub p hnw hpp
            obtain ⟨hsucc, hiff⟩ := hinv.processed p hpd hnw₀
            constructor
            · intro q hq
              exact hdomSub q (hsucc q hq)
            · intro i hi
              have hi' := hlookp i hi
              have hiff' := hiff i hi'
              rw [hfinals₁, hf']
              by_cases hacc : pairAccept a b f p₀ = true
              · rw [if_pos hacc]
                rw [mem_sinsert]
                constructor
                · rintro (hm | rfl)
                  · exact hiff'.1 hm
                  · exact absurd (post.idsInj' p p₀ item.2.2 hi
                      (post.lookExt p₀ item.2.2 hlook₀)) hpp
                · intro hacc₂
                  exact Or.inl (hiff'.2 hacc₂)
              · rw [if_neg (by simpa using hacc)]
                exact hiff'
        · exact absurd (post.newInWork p hp hpd) hnw }
  refine ⟨hinv₁, ?_⟩
  have hc := post.cnt
  have hd₀ : st₀.assigned.length = st.assigned.length := rfl
  have hw₀ : st₀.working.length = rest.length := rfl
  have hwlen : st.working.length = rest.length + 1 := by rw [hw]; rfl
  have hlen₁ : st₁.assigned.length ≤ (possPairs a b).card := by
    have h := nodup_length_le_card post.nodup' post.domPoss'
    rw [domOf_length] at h
    exact h
  have hlenmono : st.assigned.length ≤ st₁.assigned.length := by
    rcases post.domExt with ⟨newKeys, hnew⟩
    have h := congrArg List.length hnew
    simp only [List.length_append, domOf_length] at h
    have h₀ : st₀.assigned.length = st.assigned.length := rfl
    omega
  unfold pairMeasure
  omega

/-- The fueled `pair` loop reaches the empty worklist and preserves the
invariant whenever the fuel dominates the measure. -/
theorem pairLoop_post {A : Type} [LinearOrder A] (a b : Dfa A) (f : Bool → Bool → Bool) :
    ∀ (fuel : Nat) (st : PairSt A), PairInv a b f st → pairMeasure a b st ≤ fuel →
      (a.pairLoop b f fuel st).working = [] ∧ PairInv a b f (a.pairLoop b f fuel st) := by
  intro fuel
  induction fuel with
  | zero =>
    intro st hinv hm
    unfold pairMeasure at hm
    have hempty : st.working = [] := List.length_eq_zero.1 (by omega)
    rw [Dfa.pairLoop]
    exact ⟨hempty, hinv⟩
  | succ fuel ih =>
    intro st hinv hm
    rcases hw : st.working with _ | ⟨item, rest⟩
    · rw [Dfa.pairLoop, hw]
      exact ⟨hw, hinv⟩
    · rw [Dfa.pairLoop, hw]
      obtain ⟨hinv₁, hdec⟩ := pairStep_post a b f st item rest hinv hw
      exact ih _ hinv₁ (by omega)

/-- The initial `pair` worklist state satisfies the invariant. -/
theorem pairInit_inv {A : Type} [LinearOrder A] (a b : Dfa A) (f : Bool → Bool → Bool) :
    PairInv a b f a.pairInit :=
  { zeroMem := by simp [domOf, Dfa.pairInit]
    reach := by
      intro p hp
      simp only [domOf, Dfa.pairInit, List.map_cons, List.map_nil, List.mem_singleton] at hp
      subst hp
      exact Relation.ReflTransGen.refl
    wlook := by
      intro t ht
      simp only [Dfa.pairInit, List.mem_singleton] at ht
      subst ht
      simp [alookup]
    processed := by
      intro p hp hnw
      exfalso
      apply hnw
      simp only [domOf, Dfa.pairInit, List.map_cons, List.map_nil, List.mem_singleton] at hp
      simp [wpairsOf, Dfa.pairInit, hp]
    finalsChar := by intro i hi; simp [Dfa.pairInit] at hi
    keysNodup := by simp [domOf, Dfa.pairInit]
    idsBound := by
      intro e he
      simp only [Dfa.pairInit, List.mem_singleton] at he
      subst he
      show 0 < (Det.new a.graph.alphabet).node.1.nextId
      exact Nat.zero_lt_one
    idsInj := by
      intro p q i hp hq
      simp only [Dfa.pairInit, alookup] at hp hq
      split_ifs at hp hq with h₁ h₂
      rw [← h₁, ← h₂]
    domPoss := by
      intro p hp
      simp only [domOf, Dfa.pairInit, List.map_cons, List.map_nil, List.mem_singleton] at hp
      subst hp
      exact zero_mem_poss a b }

/-- The `pair` worklist drains completely under the default fuel. -/
theorem pairRun_post {A : Type} [LinearOrder A] (a b : Dfa A) (f : Bool → Bool → Bool) :
    (a.pairRun b f).working = [] ∧ PairInv a b f (a.pairRun b f) := by
  apply pairLoop_post a b f (a.pairFuel b) a.pairInit (pairInit_inv a b f)
  have h1 : (a.pairInit (A := A)).working.length = 1 := rfl
  have h2 : (a.pairInit (A := A)).assigned.length = 1 := rfl
  have hcard := possPairs_card_le a b
  have hpos : 1 ≤ (possPairs a b).card :=
    Finset.card_pos.2 ⟨(0, 0), zero_mem_poss a b⟩
  unfold pairMeasure
  omega

/-- A pair is assigned by the finished `pair` worklist iff it is reachable. -/
theorem pairRun_dom_iff {A : Type} [LinearOrder A] (a b : Dfa A) (f : Bool → Bool → Bool)
    (p : Nat × Nat) : p ∈ domOf (a.pairRun b f) ↔ PairReach a b p := by
  obtain ⟨hw, hinv⟩ := pairRun_post a b f
  constructor
  · exact hinv.reach p
  · intro hr
    induction hr with
    | refl => exact hinv.zeroMem
    | tail h₁ h₂ ih =>
      rcases h₂ with ⟨s, hs, rfl⟩
      have hproc := hinv.processed _ ih (by simp [wpairsOf, hw])
      exact hproc.1 _ (List.mem_map.2 ⟨s, hs, rfl⟩)

/-- An id is accepting in the finished `pair` worklist iff its pair satisfies
the decider. -/
theorem pairRun_finals_iff {A : Type} [LinearOrder A] (a b : Dfa A) (f : Bool → Bool → Bool)
    (i : Nat) :
    i ∈ (a.pairRun b f).finals ↔
      ∃ p, alookup (a.pairRun b f).assigned p = some i ∧ pairAccept a b f p = true := by
  obtain ⟨hw, hinv⟩ := pairRun_post a b f
  constructor
  · exact hinv.finalsChar i
  · rintro ⟨p, hlp, hap⟩
    have hproc := hinv.processed p (alookup_mem_dom hlp) (by simp [wpairsOf, hw])
    exact (hproc.2 i hlp).2 hap

/-- Some accepting id exists iff some reachable pair is accepted. -/
theorem pair_finals_ne_iff {A : Type} [LinearOrder A] (a b : Dfa A) (f : Bool → Bool → Bool) :
    (∃ i, i ∈ (a.pairRun b f).finals) ↔
      ∃ p, PairReach a b p ∧ pairAccept a b f p = true := by
  constructor
  · rintro ⟨i, hi⟩
    rcases (pairRun_finals_iff a b f i).1 hi with ⟨p, hlp, hap⟩
    exact ⟨p, (pairRun_dom_iff a b f p).1 (alookup_mem_dom hlp), hap⟩
  · rintro ⟨p, hr, hap⟩
    rcases alookup_isSome_of_mem ((pairRun_dom_iff a b f p).2 hr) with ⟨i, hi⟩
    exact ⟨i, (pairRun_finals_iff a b f i).2 ⟨p, hi, hap⟩⟩

/-- The embedded `Dfa::pair` returns `None` exactly when no reachable product pair is
accepted by the decider. -/
theorem pair_none_iff {A : Type} [LinearOrder A] (a b : Dfa A) (f : Bool → Bool → Bool) :
    a.pair b f = none ↔ ¬∃ p, PairReach a b p ∧ pairAccept a b f p = true := by
  have hpair : a.pair b f = if (a.pairRun b f).finals.isEmpty then none
      else some ⟨(a.pairRun b f).graph, (a.pairRun b f).finals⟩ := rfl
  rw [hpair, ← pair_finals_ne_iff a b f]
  constructor
  · intro h
    split_ifs at h with he
    rw [List.isEmpty_iff] at he
    rintro ⟨i, hi⟩
    rw [he] at hi
    exact absurd hi (List.not_mem_nil i)
  · intro h
    have he : (a.pairRun b f).finals = [] := by
      by_contra hne
      rcases List.exists_mem_of_ne_nil _ hne with ⟨i, hi⟩
      exact h ⟨i, hi⟩
    rw [if_pos (by simp [he])]

/-- Claim C2 (confirmed). `Dfa::pair` returns `Some` exactly when at least one
product pair reachable from `(0,0)` through the lockstep edges satisfies the
decider on the two finality flags, and in the resulting product the accepting
ids are exactly the ids assigned to decider-accepted pairs. -/
theorem Dfa.pair_characterisation {A : Type} [LinearOrder A] (a b : Dfa A)
    (f : Bool → Bool → Bool) (_halph : a.alphabet = b.alphabet) :
    ((a.pair b f).isSome = true ↔
      ∃ p, PairReach a b p ∧ pairAccept a b f p = true) ∧
    ∀ P, a.pair b f = some P → ∀ p i,
      alookup (a.pairRun b f).assigned p = some i →
      (i ∈ P.finals ↔ pairAccept a b f p = true) := by
  constructor
  · rw [Option.isSome_iff_ne_none, ne_eq, pair_none_iff, not_not]
  · intro P hP p i hlp
    have hpair : a.pair b f = if (a.pairRun b f).finals.isEmpty then none
        else some ⟨(a.pairRun b f).graph, (a.pairRun b f).finals⟩ := rfl
    rw [hpair] at hP
    split_ifs at hP with he
    have hPf : P.finals = (a.pairRun b f).finals := by
      have h := Option.some.inj hP
      rw [← h]
    rw [hPf]
    obtain ⟨hw, hinv⟩ := pairRun_post a b f
    constructor
    · intro hi
      rcases hinv.finalsChar i hi with ⟨q, hlq, haq⟩
      obtain rfl := hinv.idsInj q p i hlq hlp
      exact haq
    · intro hap
      have hproc := hinv.processed p (alookup_mem_dom hlp) (by simp [wpairsOf, hw])
      exact (hproc.2 i hlp).2 hap

/-- Witness for C2: the characterisation applied to the self-loop DFA paired
with itself under conjunction. -/
theorem Dfa.pair_characterisation_witness :
    (((dfaSelfLoop.pair dfaSelfLoop fun l r => l && r).isSome = true ↔
      ∃ p, PairReach dfaSelfLoop dfaSelfLoop p ∧
        pairAccept dfaSelfLoop dfaSelfLoop (fun l r => l && r) p = true) ∧
    ∀ P, dfaSelfLoop.pair dfaSelfLoop (fun l r => l && r) = some P → ∀ p i,
      alookup (dfaSelfLoop.pairRun dfaSelfLoop fun l r => l && r).assigned p = some i →
      (i ∈ P.finals ↔ pairAccept dfaSelfLoop dfaSelfLoop (fun l r => l && r) p = true)) :=
  Dfa.pair_characterisation dfaSelfLoop dfaSelfLoop (fun l r => l && r) rfl

theorem pairEmptyVisit_fold {A : Type} (a b : Dfa A) :
    ∀ (L : List (Nat × Nat × Nat)) (st : List (Nat × Nat) × List (Nat × Nat)),
      (∀ s ∈ L, (s.2.1, s.2.2) ∈ possPairs a b) →
      (∀ s ∈ L, PairReach a b (s.2.1, s.2.2)) →
      st.1.Nodup → (∀ p ∈ st.2, p ∈ st.1) →
      (∀ p ∈ st.1, p ∈ possPairs a b) →
      (∀ p ∈ st.1, PairReach a b p) →
      EVisitPost a b st (L.foldl Dfa.pairEmptyVisit st) L := by
  intro L
  induction L with
  | nil =>
    intro st _ _ hnd hws hposs hreach
    rw [List.foldl_nil]
    exact
      { domExt := ⟨[], (List.append_nil _).symm⟩
        succIn := by intro s hs; simp at hs
        cnt := rfl
        newInWork := fun p hp hnp => absurd hp hnp
        workExt := ⟨[], rfl⟩
        nodup' := hnd
        poss' := hposs
        reach' := hreach
        wsub' := hws }
  | cons s L ih =>
    intro st hLposs hLreach hnd hws hposs hreach
    rw [List.foldl_cons]
    by_cases hmem : (s.2.1, s.2.2) ∈ st.1
    · have hv : Dfa.pairEmptyVisit st s = st := by
        unfold Dfa.pairEmptyVisit
        rw [if_pos hmem]
      rw [hv]
      have post := ih st (fun x hx => hLposs x (List.mem_cons_of_mem _ hx))
        (fun x hx => hLreach x (List.mem_cons_of_mem _ hx)) hnd hws hposs hreach
      refine
        { domExt := post.domExt
          succIn := ?_
          cnt := post.cnt
          newInWork := post.newInWork
          workExt := post.workExt
          nodup' := post.nodup'
          poss' := post.poss'
          reach' := post.reach'
          wsub' := post.wsub' }
      intro x hx
      rcases List.mem_cons.1 hx with rfl | hx
      · rcases post.domExt with ⟨newKeys, hnew⟩
        rw [hnew]
        exact List.mem_append_left _ hmem
      · exact post.succIn x hx
    · have hv : Dfa.pairEmptyVisit st s
          = (st.1 ++ [(s.2.1, s.2.2)], (s.2.1, s.2.2) :: st.2) := by
        unfold Dfa.pairEmptyVisit
        rw [if_neg hmem]
      rw [hv]
      set k : Nat × Nat := (s.2.1, s.2.2) with hk
      set st₁ : List (Nat × Nat) × List (Nat × Nat) := (st.1 ++ [k], k :: st.2) with hst₁
      have hnd₁ : st₁.1.Nodup := by
        rw [List.nodup_append]
        exact ⟨hnd, List.nodup_singleton _, by
          intro x hx hxk
          simp only [List.mem_singleton] at hxk
          subst hxk
          exact hmem hx⟩
      have hws₁ : ∀ p ∈ st₁.2, p ∈ st₁.1 := by
        intro p hp
        rcases List.mem_cons.1 hp with rfl | hp
        · exact List.mem_append_right _ (by simp)
        · exact List.mem_append_left _ (hws p hp)
      have hposs₁ : ∀ p ∈ st₁.1, p ∈ possPairs a b := by
        intro p hp
        rcases List.mem_append.1 hp with hp | hp
        · exact hposs p hp
        · simp only [List.mem_singleton] at hp
          subst hp
          exact hLposs s (List.mem_cons_self s L)
      have hreach₁ : ∀ p ∈ st₁.1, PairReach a b p := by
        intro p hp
        rcases List.mem_append.1 hp with hp | hp
        · exact hreach p hp
        · simp only [List.mem_singleton] at hp
          subst hp
          exact hLreach s (List.mem_cons_self s L)
      have post := ih st₁ (fun x hx => hLposs x (List.mem_cons_of_mem _ hx))
        (fun x hx => hLreach x (List.mem_cons_of_mem _ hx)) hnd₁ hws₁ hposs₁ hreach₁
      refine
        { domExt := ?_
          succIn := ?_
          cnt := ?_
          newInWork := ?_
          workExt := ?_
          nodup' := post.nodup'
          poss' := post.poss'
          reach' := post.reach'
          wsub' := post.wsub' }
      · rcases post.domExt with ⟨newKeys, hnew⟩
        refine ⟨[k] ++ newKeys, ?_⟩
        rw [hnew]
        show st.1 ++ [k] ++ newKeys = st.1 ++ ([k] ++ newKeys)
        rw [List.append_assoc]
      · intro x hx
        rcases List.mem_cons.1 hx with rfl | hx
        · rcases post.domExt with ⟨newKeys, hnew⟩
          rw [hnew]
          exact List.mem_append_left _ (List.mem_append_right _ (by simp))
        · exact post.succIn x hx
      · have h₁ : st₁.1.length = st.1.length + 1 := by simp [hst₁]
        have h₂ : st₁.2.length = st.2.length + 1 := rfl
        have := post.cnt
        omega
      · intro p hp hnp
        by_cases hpk : p = k
        · subst hpk
          rcases post.workExt with ⟨pushed, hpw⟩
          rw [hpw]
          exact List.mem_append_right _ (List.mem_cons_self _ _)
        · have hp₁ : p ∉ st₁.1 := by
            intro hmem₁
            rcases List.mem_append.1 hmem₁ with hm | hm
            · exact hnp hm
            · simp only [List.mem_singleton] at hm
              exact hpk hm
          exact post.newInWork p hp hp₁
      · rcases post.workExt with ⟨pushed, hpw⟩
        refine ⟨pushed ++ [k], ?_⟩
        rw [hpw]
        simp

/-- With an empty worklist the invariant forces every reachable pair to be
assigned and rejected by the decider. -/
theorem eInv_closed {A : Type} (a b : Dfa A) (f : Bool → Bool → Bool)
    (st : List (Nat × Nat) × List (Nat × Nat)) (hinv : PairEInv a b f st)
    (hw : st.2 = []) : ∀ p, PairReach a b p → p ∈ st.1 ∧ pairAccept a b f p = false := by
  intro p hr
  induction hr with
  | refl =>
    refine ⟨hinv.zeroMem, (hinv.processed _ hinv.zeroMem (by simp [hw])).2⟩
  | tail h₁ h₂ ih =>
    rcases h₂ with ⟨s, hs, rfl⟩
    have hmid := (hinv.processed _ ih.1 (by simp [hw])).1
    have hq : (s.2.1, s.2.2) ∈ st.1 := hmid _ (List.mem_map.2 ⟨s, hs, rfl⟩)
    exact ⟨hq, (hinv.processed _ hq (by simp [hw])).2⟩

/-- The fueled `pair_empty` loop decides reachable acceptance whenever the
fuel dominates the measure. -/
theorem pairEmptyLoop_post {A : Type} (a b : Dfa A) (f : Bool → Bool → Bool) :
    ∀ (fuel : Nat) (st : List (Nat × Nat) × List (Nat × Nat)), PairEInv a b f st →
      st.2.length + ((possPairs a b).card - st.1.length) ≤ fuel →
      (a.pairEmptyLoop b f fuel st = true →
        ∀ p, PairReach a b p → pairAccept a b f p = false) ∧
      (a.pairEmptyLoop b f fuel st = false →
        ∃ p, PairReach a b p ∧ pairAccept a b f p = true) := by
  intro fuel
  induction fuel with
  | zero =>
    intro st hinv hm
    have hempty : st.2 = [] := List.length_eq_zero.1 (by omega)
    constructor
    · intro _ p hr
      exact (eInv_closed a b f st hinv hempty p hr).2
    · intro hfalse
      rw [Dfa.pairEmptyLoop] at hfalse
      exact absurd hfalse (by simp)
  | succ fuel ih =>
    intro st hinv hm
    rcases hw : st.2 with _ | ⟨item, rest⟩
    · rw [Dfa.pairEmptyLoop, hw]
      constructor
      · intro _ p hr
        exact (eInv_closed a b f st hinv hw p hr).2
      · intro hfalse
        exact absurd hfalse (by simp)
    · have hloop : a.pairEmptyLoop b f (fuel + 1) st
          = if pairAccept a b f item = true then false
            else a.pairEmptyLoop b f fuel (a.pairEmptyStep b (st.1, rest) item) := by
        rw [Dfa.pairEmptyLoop, hw]
      rw [hloop]
      have hitem : item ∈ st.1 := hinv.wsub item (hw ▸ List.mem_cons_self item rest)
      by_cases hacc : pairAccept a b f item = true
      · rw [if_pos hacc]
        constructor
        · intro htrue
          exact absurd htrue (by simp)
        · intro _
          exact ⟨item, hinv.reach item hitem, hacc⟩
      · rw [if_neg hacc]
        have hstep : a.pairEmptyStep b (st.1, rest) item
            = (pairSuccs a b item).foldl Dfa.pairEmptyVisit (st.1, rest) := rfl
        have hreachitem : PairReach a b item := hinv.reach item hitem
        have post := pairEmptyVisit_fold a b (pairSuccs a b item) (st.1, rest)
          (fun s hs => succsP_mem_poss a b (List.mem_map.2 ⟨s, hs, rfl⟩))
          (fun s hs => hreachitem.tail ⟨s, hs, rfl⟩)
          hinv.nodup
          (fun p hp => hinv.wsub p (hw ▸ List.mem_cons_of_mem item hp))
          hinv.poss hinv.reach
        rw [← hstep] at post
        set st₁ := a.pairEmptyStep b (st.1, rest) item with hst₁
        have hsub₁ : ∀ p ∈ st.1, p ∈ st₁.1 := by
          rcases post.domExt with ⟨newKeys, hnew⟩
          intro p hp
          rw [hnew]
          exact List.mem_append_left _ hp
        have hinv₁ : PairEInv a b f st₁ :=
          { zeroMem := hsub₁ _ hinv.zeroMem
            reach := post.reach'
            wsub := post.wsub'
            nodup := post.nodup'
            poss := post.poss'
            processed := by
              intro p hp hnw
              by_cases hpd : p ∈ st.1
              · by_cases hpi : p = item
                · subst hpi
                  constructor
                  · intro q hq
                    rcases List.mem_map.1 hq with ⟨s, hs, rfl⟩
                    exact post.succIn s hs
                  · simpa using hacc
                · have hnrest : p ∉ rest := by
                    intro hmem
                    rcases post.workExt with ⟨pushed, hpw⟩
                    exact hnw (by rw [hpw]; exact List.mem_append_right _ hmem)
                  have hnw₀ : p ∉ st.2 := by
                    rw [hw]
                    intro hmem
                    rcases List.mem_cons.1 hmem with rfl | hmem
                    · exact hpi rfl
                    · exact hnrest hmem
                  obtain ⟨hsucc, haccp⟩ := hinv.processed p hpd hnw₀
                  exact ⟨fun q hq => hsub₁ q (hsucc q hq), haccp⟩
              · exact absurd (post.newInWork p hp hpd) hnw }
        have hmeas : st₁.2.length + ((possPairs a b).card - st₁.1.length) ≤ fuel := by
          have hc := post.cnt
          have hb1 : ((st.1, rest) : List (Nat × Nat) × List (Nat × Nat)).1.length
              = st.1.length := rfl
          have hb2 : ((st.1, rest) : List (Nat × Nat) × List (Nat × Nat)).2.length
              = rest.length := rfl
          rw [hb1, hb2] at hc
          have hlen₁ : st₁.1.length ≤ (possPairs a b).card :=
            nodup_length_le_card post.nodup' post.poss'
          have hlenmono : st.1.length ≤ st₁.1.length := by
            rcases post.domExt with ⟨newKeys, hnew⟩
            have h := congrArg List.length hnew
            simp only [List.length_append] at h
            rw [hb1] at h
            omega
          have hwlen : st.2.length = rest.length + 1 := by rw [hw]; rfl
          omega
        exact ih st₁ hinv₁ hmeas

/-- The embedded `Dfa::pair_empty` returns `true` exactly when no reachable product pair is
accepted by the decider. -/
theorem pairEmpty_true_iff {A : Type} (a b : Dfa A) (f : Bool → Bool → Bool) :
    a.pairEmpty b f = true ↔ ¬∃ p, PairReach a b p ∧ pairAccept a b f p = true := by
  have hinit : PairEInv a b f ([(0, 0)], [(0, 0)]) :=
    { zeroMem := by simp
      reach := by
        intro p hp
        simp only [List.mem_singleton] at hp
        subst hp
        exact Relation.ReflTransGen.refl
      wsub := fun p hp => hp
      processed := by
        intro p hp hnw
        simp only [List.mem_singleton] at hp
        exact absurd (by simp [hp]) hnw
      nodup := by simp
      poss := by
        intro p hp
        simp only [List.mem_singleton] at hp
        subst hp
        exact zero_mem_poss a b }
  have hm : ([(0, 0)] : List (Nat × Nat)).length
      + ((possPairs a b).card - ([((0 : Nat), (0 : Nat))] : List (Nat × Nat)).length)
      ≤ a.pairFuel b := by
    have hcard := possPairs_card_le a b
    have hpos : 1 ≤ (possPairs a b).card :=
      Finset.card_pos.2 ⟨(0, 0), zero_mem_poss a b⟩
    simp only [List.length_singleton]
    omega
  obtain ⟨htrue, hfalse⟩ := pairEmptyLoop_post a b f (a.pairFuel b) ([(0, 0)], [(0, 0)])
    hinit hm
  have hdef : a.pairEmpty b f = a.pairEmptyLoop b f (a.pairFuel b) ([(0, 0)], [(0, 0)]) := rfl
  constructor
  · intro h
    rintro ⟨p, hr, hacc⟩
    have := htrue (hdef ▸ h) p hr
    rw [hacc] at this
    exact absurd this (by simp)
  · intro h
    rcases hb : a.pairEmpty b f with _ | _
    · exact absurd (hfalse (hdef ▸ hb)) h
    · rfl

/-- Claim C3 (confirmed). For DFAs with equal alphabets, `pair_empty` returns
`true` exactly when `pair` returns `None`: both are characterised by the
absence of a reachable decider-accepted product pair. -/
theorem Dfa.pairEmpty_iff_pair_none {A : Type} [LinearOrder A] (a b : Dfa A)
    (f : Bool → Bool → Bool) (_halph : a.alphabet = b.alphabet) :
    a.pairEmpty b f = true ↔ a.pair b f = none := by
  rw [pairEmpty_true_iff, pair_none_iff]

/-- Witness for C3: the equivalence applied to the self-loop DFA paired with
itself under conjunction. -/
theorem Dfa.pairEmpty_iff_pair_none_witness :
    (dfaSelfLoop.pairEmpty dfaSelfLoop fun l r => l && r) = true ↔
      dfaSelfLoop.pair dfaSelfLoop (fun l r => l && r) = none :=
  Dfa.pairEmpty_iff_pair_none dfaSelfLoop dfaSelfLoop (fun l r => l && r) rfl

end Automata
